import Mathlib

/- Shallow embedding of the turbo-tasks incremental computation engine:
   the manager (crates/turbo-tasks/src/manager.rs), the slot update policy
   used by the value macro (crates/turbo-tasks-macros/src/lib.rs), the
   type-erased value support (crates/turbo-tasks/src/magic_any.rs) and the
   stats tree (crates/turbo-tasks-memory/src/stats.rs). -/

namespace Turbo

/-- Width of the task id counter: `next_task_id` is an `AtomicU32`, so
`fetch_add` wraps at `2 ^ 32`. -/
def W : Nat := 2 ^ 32

/-- Embeds `TurboTasks::get_free_task_id` (manager.rs line 72): a
`fetch_add(1, Ordering::Relaxed)` on the `u32` counter returns the stored
value and stores the incremented value, wrapping at `W`. The stored value is
below `W` by representation. -/
def get_free_task_id (c : Nat) : Nat × Nat := (c, (c + 1) % W)

/-- Counter value after one allocation. -/
def nextCounter (c : Nat) : Nat := (c + 1) % W

/-- Counter value after `k` allocations starting from stored value `c`. -/
def counterAfter (c : Nat) : Nat → Nat
  | 0 => c
  | k + 1 => counterAfter (nextCounter c) k

/-- The id handed out by the `k`-th call (0-indexed) of `get_free_task_id`
when the counter initially stores `c`: `fetch_add` returns the stored value,
which after `k` prior allocations is `counterAfter c k`. -/
def allocatedId (c k : Nat) : Nat := counterAfter c k

theorem counterAfter_eq (c k : Nat) (hc : c < W) : counterAfter c k = (c + k) % W := by
  induction k generalizing c with
  | zero => simpa [counterAfter] using (Nat.mod_eq_of_lt hc).symm
  | succ n ih =>
    have hlt : (c + 1) % W < W := Nat.mod_lt _ (by norm_num [W])
    rw [counterAfter, nextCounter, ih _ hlt, Nat.mod_add_mod]
    congr 1
    omega

/-- Embeds `RawVc` as far as the manager needs it: `cached_call` returns
`RawVc::TaskOutput(task)`. -/
inductive RawVc where
  | taskOutput : Nat → RawVc
  | taskSlot : Nat → Nat → RawVc
deriving DecidableEq, Repr

/-- Modelled from the spec: `task_input.rs` is not among the provided
sources. Per the spec (section 3, CallArguments), an argument is either a
concrete value, a reference that already points at a slot (both resolved),
or a reference still pointing at another task's output (unresolved); the
manager additionally distinguishes a `Nothing` input. -/
inductive TaskInput where
  | taskOutput : Nat → TaskInput
  | taskSlot : Nat → Nat → TaskInput
  | sharedValue : Nat → TaskInput
  | nothing : TaskInput
deriving DecidableEq, Repr

/-- Modelled from the spec: an input is resolved unless it still points at
another task's output. -/
def TaskInput.is_resolved : TaskInput → Bool
  | .taskOutput _ => false
  | _ => true

/-- Modelled from the spec: the `Nothing` marker input. -/
def TaskInput.is_nothing : TaskInput → Bool
  | .nothing => true
  | _ => false

/-- The manager state visible to one call cache: the task id counter, the
`memory_tasks` table (modelled by the list of present task ids), the cache
map itself and the parent/child edges recorded by `connect_child`. -/
structure CacheState (K : Type) where
  nextTaskId : Nat
  memoryTasks : List Nat
  cache : List (K × Nat)
  childEdges : List (Nat × Nat)
deriving DecidableEq, Repr

/-- Lookup in a call cache (`map.get(&key)` on the flurry map). -/
def cacheLookup [DecidableEq K] (cache : List (K × Nat)) (key : K) : Option Nat :=
  (cache.find? (fun e => e.1 = key)).map (fun e => e.2)

/-- Embeds `parent.connect_child(task, self)` as recording a parent/child
edge; the edge bookkeeping itself lives in task.rs. -/
def connect_child (parent child : Nat) {K : Type} (s : CacheState K) : CacheState K :=
  { s with childEdges := (parent, child) :: s.childEdges }

/-- The tail of the slow pass of `cached_call` (manager.rs lines 144-156):
the atomic `map.try_insert(key, id)`; on conflict the speculative task is
removed from `memory_tasks` and the id of the already-present task is used;
either way the caller is connected as a parent of the surviving task. -/
def tryInsertFinish [DecidableEq K] (s : CacheState K) (caller : Nat) (key : K)
    (id : Nat) : Nat × CacheState K :=
  match cacheLookup s.cache key with
  | some existing =>
    (existing, connect_child caller existing { s with memoryTasks := s.memoryTasks.erase id })
  | none =>
    (id, connect_child caller id { s with cache := (key, id) :: s.cache })

/-- Embeds `TurboTasks::cached_call` (manager.rs lines 125-158) run by one
caller without interleaving: fast pass on a cache hit, otherwise allocate an
id, insert the speculative task into `memory_tasks` and race `try_insert`. -/
def cached_call [DecidableEq K] (s : CacheState K) (caller : Nat) (key : K) :
    RawVc × CacheState K :=
  match cacheLookup s.cache key with
  | some task => (RawVc.taskOutput task, connect_child caller task s)
  | none =>
    let alloc := get_free_task_id s.nextTaskId
    let s1 : CacheState K :=
      { s with nextTaskId := alloc.2, memoryTasks := alloc.1 :: s.memoryTasks }
    let fin := tryInsertFinish s1 caller key alloc.1
    (RawVc.taskOutput fin.1, fin.2)

/-- State of two concurrent callers racing the slow pass of `cached_call`:
the shared manager state plus each caller's program counter, allocated id
and returned task id. Both callers have already executed the initial
`map.get(&key)` and seen a miss (the hypothesis of the race). -/
structure RaceState (K : Type) where
  global : CacheState K
  pc1 : Nat
  pc2 : Nat
  id1 : Nat
  id2 : Nat
  ret1 : Option Nat
  ret2 : Option Nat
deriving DecidableEq, Repr

/-- One atomic step of the `cached_call` race; `who = true` steps caller 1.
Each caller runs, in program order: the `get_free_task_id` fetch-add, the
`memory_tasks.insert`, and the atomic `try_insert` with its conflict branch.
The steps operate on shared state in the interleaving order given by the
schedule; a finished caller ignores further steps. -/
def raceStep [DecidableEq K] (key : K) (c1 c2 : Nat) (s : RaceState K) (who : Bool) :
    RaceState K :=
  if who then
    match s.pc1 with
    | 0 =>
      let alloc := get_free_task_id s.global.nextTaskId
      { s with id1 := alloc.1, global := { s.global with nextTaskId := alloc.2 }, pc1 := 1 }
    | 1 =>
      { s with global := { s.global with memoryTasks := s.id1 :: s.global.memoryTasks },
               pc1 := 2 }
    | 2 =>
      let fin := tryInsertFinish s.global c1 key s.id1
      { s with ret1 := some fin.1, global := fin.2, pc1 := 3 }
    | _ => s
  else
    match s.pc2 with
    | 0 =>
      let alloc := get_free_task_id s.global.nextTaskId
      { s with id2 := alloc.1, global := { s.global with nextTaskId := alloc.2 }, pc2 := 1 }
    | 1 =>
      { s with global := { s.global with memoryTasks := s.id2 :: s.global.memoryTasks },
               pc2 := 2 }
    | 2 =>
      let fin := tryInsertFinish s.global c2 key s.id2
      { s with ret2 := some fin.1, global := fin.2, pc2 := 3 }
    | _ => s

/-- Run the two-caller race under an interleaving schedule. -/
def raceRun [DecidableEq K] (key : K) (c1 c2 : Nat) (s : RaceState K)
    (sched : List Bool) : RaceState K :=
  sched.foldl (raceStep key c1 c2) s

/-- Initial race state: both callers have observed the cache miss, neither
has allocated yet. -/
def raceInit {K : Type} (s0 : CacheState K) : RaceState K :=
  ⟨s0, 0, 0, 0, 0, none, none⟩

theorem cacheLookup_cons_self {K : Type} [DecidableEq K] (k : K) (v : Nat)
    (c : List (K × Nat)) : cacheLookup ((k, v) :: c) k = some v := by
  simp [cacheLookup, List.find?]

/-- C1: for every cache key, two callers racing `cached_call` before either
task starts executing both receive the same `TaskId` under every
interleaving of their slow-pass steps: the loser's speculative task is
removed from `memory_tasks`, its id is returned to neither caller, the
cache maps the key to the single surviving task, and both callers are
connected as parents of the survivor. -/
theorem C1_cached_call_race {K : Type} [DecidableEq K] (s0 : CacheState K) (key : K)
    (c1 c2 : Nat) (sched : List Bool)
    (hm : cacheLookup s0.cache key = none)
    (hwf : ∀ m ∈ s0.memoryTasks, m < s0.nextTaskId)
    (hW : s0.nextTaskId + 2 ≤ W)
    (hlen : sched.length = 6) (ht : sched.count true = 3) :
    ∃ w l,
      (raceRun key c1 c2 (raceInit s0) sched).ret1 = some w ∧
      (raceRun key c1 c2 (raceInit s0) sched).ret2 = some w ∧
      ((w = s0.nextTaskId ∧ l = s0.nextTaskId + 1) ∨
        (w = s0.nextTaskId + 1 ∧ l = s0.nextTaskId)) ∧
      w ∈ (raceRun key c1 c2 (raceInit s0) sched).global.memoryTasks ∧
      l ∉ (raceRun key c1 c2 (raceInit s0) sched).global.memoryTasks ∧
      cacheLookup (raceRun key c1 c2 (raceInit s0) sched).global.cache key = some w ∧
      (c1, w) ∈ (raceRun key c1 c2 (raceInit s0) sched).global.childEdges ∧
      (c2, w) ∈ (raceRun key c1 c2 (raceInit s0) sched).global.childEdges := by
  have hmod : (s0.nextTaskId + 1) % W = s0.nextTaskId + 1 := Nat.mod_eq_of_lt (by omega)
  have hne : s0.nextTaskId ≠ s0.nextTaskId + 1 := by omega
  have hne' : s0.nextTaskId + 1 ≠ s0.nextTaskId := by omega
  rcases sched with _ | ⟨b1, _ | ⟨b2, _ | ⟨b3, _ | ⟨b4, _ | ⟨b5, _ | ⟨b6, _ | ⟨b7, t⟩⟩⟩⟩⟩⟩⟩ <;>
      (try simp only [List.length_cons, List.length_nil] at hlen) <;>
      (try (exfalso; omega))
  cases b1 <;> cases b2 <;> cases b3 <;> cases b4 <;> cases b5 <;> cases b6 <;>
    first
      | (exfalso; revert ht; decide)
      | (simp [raceRun, raceStep, raceInit, get_free_task_id, tryInsertFinish, connect_child,
          hm, hmod, cacheLookup_cons_self, List.erase_cons, hne, hne'] <;>
         intro h <;> exact absurd (hwf _ h) (by omega))

theorem C1_cached_call_race_witness :
    ∃ w l,
      (raceRun 0 10 20 (raceInit (⟨1, [], [], []⟩ : CacheState Nat))
        [true, true, true, false, false, false]).ret1 = some w ∧
      (raceRun 0 10 20 (raceInit (⟨1, [], [], []⟩ : CacheState Nat))
        [true, true, true, false, false, false]).ret2 = some w ∧
      ((w = 1 ∧ l = 1 + 1) ∨ (w = 1 + 1 ∧ l = 1)) ∧
      w ∈ (raceRun 0 10 20 (raceInit (⟨1, [], [], []⟩ : CacheState Nat))
        [true, true, true, false, false, false]).global.memoryTasks ∧
      l ∉ (raceRun 0 10 20 (raceInit (⟨1, [], [], []⟩ : CacheState Nat))
        [true, true, true, false, false, false]).global.memoryTasks ∧
      cacheLookup (raceRun 0 10 20 (raceInit (⟨1, [], [], []⟩ : CacheState Nat))
        [true, true, true, false, false, false]).global.cache 0 = some w ∧
      (10, w) ∈ (raceRun 0 10 20 (raceInit (⟨1, [], [], []⟩ : CacheState Nat))
        [true, true, true, false, false, false]).global.childEdges ∧
      (20, w) ∈ (raceRun 0 10 20 (raceInit (⟨1, [], [], []⟩ : CacheState Nat))
        [true, true, true, false, false, false]).global.childEdges :=
  C1_cached_call_race ⟨1, [], [], []⟩ 0 10 20 [true, true, true, false, false, false]
    rfl (by simp) (by norm_num [W]) rfl rfl

/-- C8 counterexample: `next_task_id` is a wrapping `u32` counter, so the
claim that every allocated id is strictly greater than all previously
returned ids (and that no id is handed out twice) fails at the wrap-around:
starting from the initial counter value 1, call number `W - 2` returns
`W - 1` but the next call returns `0`, and call number `W` returns the same
id as call number `0`. -/
theorem C8_counterexample :
    allocatedId 1 (W - 2) = W - 1 ∧ allocatedId 1 (W - 1) = 0 ∧
    ¬ allocatedId 1 (W - 2) < allocatedId 1 (W - 1) ∧
    allocatedId 1 W = allocatedId 1 0 := by
  have h1 : (1 : Nat) < W := by norm_num [W]
  refine ⟨?_, ?_, ?_, ?_⟩ <;>
    simp only [allocatedId, counterAfter_eq _ _ h1] <;> norm_num [W, counterAfter]

/-- C8 amended: as long as fewer than `2 ^ 32` ids have been allocated, ids
are strictly increasing (hence process-unique and never reused), an id below
the current counter value — such as the id of a task discarded after losing
the cache-insertion race — is never handed out again before wrap-around, and
the conflict branch of `cached_call` leaves the allocator untouched (there is
no free list), so a discarded id is retired rather than recycled. -/
theorem C8_amended (c : Nat) (hc : c < W) :
    (∀ k j, k < j → c + j < W → allocatedId c k < allocatedId c j) ∧
    (∀ lost k, lost < c → c + k < W → allocatedId c k ≠ lost) ∧
    (∀ (s : CacheState Nat) (caller key id : Nat),
      cacheLookup s.cache key ≠ none →
      ((tryInsertFinish s caller key id).2).nextTaskId = s.nextTaskId) := by
  refine ⟨?_, ?_, ?_⟩
  · intro k j hkj hjW
    rw [allocatedId, allocatedId, counterAfter_eq _ _ hc, counterAfter_eq _ _ hc,
      Nat.mod_eq_of_lt (by omega), Nat.mod_eq_of_lt (by omega)]
    omega
  · intro lost k hlost hkW
    rw [allocatedId, counterAfter_eq _ _ hc, Nat.mod_eq_of_lt (by omega)]
    omega
  · intro s caller key id hsome
    cases hl : cacheLookup s.cache key with
    | none => exact absurd hl hsome
    | some v => simp [tryInsertFinish, hl, connect_child]

theorem C8_amended_witness :
    (3 : Nat) < W ∧
    allocatedId 3 0 < allocatedId 3 1 ∧
    allocatedId 3 1 ≠ 2 ∧
    ((tryInsertFinish (⟨7, [5], [(0, 5)], []⟩ : CacheState Nat) 9 0 6).2).nextTaskId = 7 := by
  have h := C8_amended 3 (by norm_num [W])
  exact ⟨by norm_num [W], h.1 0 1 (by omega) (by norm_num [W]),
    h.2.1 2 1 (by omega) (by norm_num [W]),
    h.2.2 ⟨7, [5], [(0, 5)], []⟩ 9 0 6 (by simp [cacheLookup, List.find?])⟩

/-- The manager state relevant to calls: the task id counter, the task
table, the direct `native_task_cache`, the `resolve_task_cache` and the
recorded parent/child edges (the trait cache is not needed here). -/
structure TTState where
  nextTaskId : Nat
  memoryTasks : List Nat
  nativeTaskCache : List ((Nat × List TaskInput) × Nat)
  resolveTaskCache : List ((Nat × List TaskInput) × Nat)
  childEdges : List (Nat × Nat)
deriving DecidableEq, Repr

/-- View of the manager state through the native call cache. -/
def TTState.nativeView (s : TTState) : CacheState (Nat × List TaskInput) :=
  ⟨s.nextTaskId, s.memoryTasks, s.nativeTaskCache, s.childEdges⟩

/-- View of the manager state through the resolve call cache. -/
def TTState.resolveView (s : TTState) : CacheState (Nat × List TaskInput) :=
  ⟨s.nextTaskId, s.memoryTasks, s.resolveTaskCache, s.childEdges⟩

/-- Write back the native-cache view. -/
def TTState.setNative (s : TTState) (c : CacheState (Nat × List TaskInput)) : TTState :=
  ⟨c.nextTaskId, c.memoryTasks, c.cache, s.resolveTaskCache, c.childEdges⟩

/-- Write back the resolve-cache view. -/
def TTState.setResolve (s : TTState) (c : CacheState (Nat × List TaskInput)) : TTState :=
  ⟨c.nextTaskId, c.memoryTasks, s.nativeTaskCache, c.cache, c.childEdges⟩

/-- Embeds `TurboTasks::native_call` (manager.rs lines 162-171): looks up
`(func, inputs)` in the direct `native_task_cache` via `cached_call`;
functions are identified by their registry index. -/
def native_call (s : TTState) (caller func : Nat) (inputs : List TaskInput) :
    RawVc × TTState :=
  let r := cached_call s.nativeView caller (func, inputs)
  (r.1, s.setNative r.2)

/-- Embeds `TurboTasks::dynamic_call` (manager.rs lines 175-187): if every
input is resolved and none is the `Nothing` marker, delegate to
`native_call`; otherwise look up or create the resolve-wrapper task keyed by
`(func, inputs)` in the separate `resolve_task_cache`. -/
def dynamic_call (s : TTState) (caller func : Nat) (inputs : List TaskInput) :
    RawVc × TTState :=
  if inputs.all (fun i => i.is_resolved && !i.is_nothing) then
    native_call s caller func inputs
  else
    let r := cached_call s.resolveView caller (func, inputs)
    (r.1, s.setResolve r.2)

/-- C3: when every argument is already resolved (the gate the code checks:
resolved and not the `Nothing` marker), `dynamic_call` returns exactly what
`native_call` returns for the same function and arguments, consulting the
direct native-call cache; when some argument is unresolved, `dynamic_call`
instead answers from the resolve-wrapper cache keyed by the same
`(function, inputs)` pair, leaving the native-call cache untouched. -/
theorem C3_dynamic_call_dispatch (s : TTState) (caller func : Nat)
    (inputs : List TaskInput) :
    ((∀ i ∈ inputs, i.is_resolved = true ∧ i.is_nothing = false) →
      dynamic_call s caller func inputs = native_call s caller func inputs) ∧
    ((∃ i ∈ inputs, i.is_resolved = false) →
      (dynamic_call s caller func inputs).1
          = (cached_call s.resolveView caller (func, inputs)).1 ∧
      (dynamic_call s caller func inputs).2.nativeTaskCache = s.nativeTaskCache ∧
      (dynamic_call s caller func inputs).2.resolveTaskCache
          = (cached_call s.resolveView caller (func, inputs)).2.cache) := by
  constructor
  · intro h
    have hall : inputs.all (fun i => i.is_resolved && !i.is_nothing) = true := by
      rw [List.all_eq_true]
      intro i hi
      obtain ⟨h1, h2⟩ := h i hi
      simp [h1, h2]
    simp [dynamic_call, hall]
  · intro h
    obtain ⟨i, hi, hunres⟩ := h
    have hall : inputs.all (fun i => i.is_resolved && !i.is_nothing) = false := by
      apply List.all_eq_false.mpr
      exact ⟨i, hi, by simp [hunres]⟩
    simp [dynamic_call, hall, TTState.setResolve]

theorem C3_dynamic_call_dispatch_witness :
    (dynamic_call ⟨1, [], [], [], []⟩ 0 7 [TaskInput.sharedValue 5]
        = native_call ⟨1, [], [], [], []⟩ 0 7 [TaskInput.sharedValue 5]) ∧
    ((dynamic_call ⟨1, [], [], [], []⟩ 0 7 [TaskInput.taskOutput 3]).1
        = (cached_call (TTState.resolveView ⟨1, [], [], [], []⟩) 0
            (7, [TaskInput.taskOutput 3])).1 ∧
      (dynamic_call ⟨1, [], [], [], []⟩ 0 7 [TaskInput.taskOutput 3]).2.nativeTaskCache = [] ∧
      (dynamic_call ⟨1, [], [], [], []⟩ 0 7 [TaskInput.taskOutput 3]).2.resolveTaskCache
        = (cached_call (TTState.resolveView ⟨1, [], [], [], []⟩) 0
            (7, [TaskInput.taskOutput 3])).2.cache) :=
  ⟨(C3_dynamic_call_dispatch ⟨1, [], [], [], []⟩ 0 7 [TaskInput.sharedValue 5]).1
      (by intro i hi; simp at hi; simp [hi, TaskInput.is_resolved, TaskInput.is_nothing]),
    (C3_dynamic_call_dispatch ⟨1, [], [], [], []⟩ 0 7 [TaskInput.taskOutput 3]).2
      ⟨TaskInput.taskOutput 3, by simp, rfl⟩⟩

/-- Events of the quiescence accounting in `TurboTasks::schedule`
(manager.rs lines 204-255) at batch granularity: a `schedule` call, and the
epilogue of one finished execution (the `fetch_sub`, and — for the one that
brings the in-flight counter to zero — reading the accumulated
`scheduled_tasks` total, resetting it and publishing the batch count,
taken as one uninterrupted step at this granularity). -/
inductive SchedEvent where
  | sched
  | done
deriving DecidableEq, Repr

/-- The accounting state: `currently_scheduled_tasks`, `scheduled_tasks`
and the batch totals published through `last_update` for `wait_done`. -/
structure BatchState where
  inflight : Nat
  scheduledTasks : Nat
  reported : List Nat
deriving DecidableEq, Repr

/-- One accounting step: `schedule` increments both counters exactly once;
a finished execution decrements the in-flight counter (`fetch_sub` returning
the old value), and the one that saw the old value 1 reads the accumulated
total, stores zero and publishes the batch count. -/
def batchStep (s : BatchState) : SchedEvent → BatchState
  | .sched => { s with inflight := s.inflight + 1, scheduledTasks := s.scheduledTasks + 1 }
  | .done =>
    if s.inflight = 1 then
      { inflight := 0, scheduledTasks := 0, reported := s.reported ++ [s.scheduledTasks] }
    else
      { s with inflight := s.inflight - 1 }

/-- Run the batch accounting over a trace of events. -/
def batchRun (s : BatchState) (tr : List SchedEvent) : BatchState :=
  tr.foldl batchStep s

theorem count_cons_same (a : SchedEvent) (l : List SchedEvent) :
    (a :: l).count a = l.count a + 1 :=
  List.count_cons_self a l

theorem count_cons_diff (a b : SchedEvent) (hab : a ≠ b) (l : List SchedEvent) :
    (b :: l).count a = l.count a := by
  simp [List.count_cons, hab]

theorem batchRun_invariant (tr : List SchedEvent) (s : BatchState)
    (hz : s.inflight = 0 → s.scheduledTasks = 0)
    (hpre : ∀ n, ((tr.take n).count .done) ≤ s.inflight + (tr.take n).count .sched) :
    (batchRun s tr).inflight = s.inflight + tr.count .sched - tr.count .done ∧
    (batchRun s tr).reported.sum + (batchRun s tr).scheduledTasks
      = s.reported.sum + s.scheduledTasks + tr.count .sched ∧
    ((batchRun s tr).inflight = 0 → (batchRun s tr).scheduledTasks = 0) := by
  induction tr generalizing s with
  | nil =>
    refine ⟨by simp [batchRun], by simp [batchRun], ?_⟩
    simpa [batchRun] using hz
  | cons e tr ih =>
    cases e with
    | sched =>
      have hrw : batchRun s (.sched :: tr)
          = batchRun ⟨s.inflight + 1, s.scheduledTasks + 1, s.reported⟩ tr := rfl
      have hpre' : ∀ n, ((tr.take n).count SchedEvent.done)
          ≤ s.inflight + 1 + (tr.take n).count SchedEvent.sched := by
        intro n
        have h := hpre (n + 1)
        rw [List.take_succ_cons, count_cons_diff _ _ (by decide),
          count_cons_same] at h
        omega
      have ih' := ih ⟨s.inflight + 1, s.scheduledTasks + 1, s.reported⟩
        (by dsimp only; omega) hpre'
      dsimp only at ih'
      refine ⟨?_, ?_, ?_⟩
      · rw [hrw, ih'.1, count_cons_same, count_cons_diff _ _ (by decide)]
        omega
      · rw [hrw, ih'.2.1, count_cons_same]
        omega
      · rw [hrw]
        exact ih'.2.2
    | done =>
      have h1 : 1 ≤ s.inflight := by
        have h := hpre 1
        rw [List.take_succ_cons, List.take_zero, count_cons_same,
          count_cons_diff _ _ (by decide)] at h
        simp at h
        omega
      by_cases hone : s.inflight = 1
      · have hrw : batchRun s (.done :: tr)
            = batchRun ⟨0, 0, s.reported ++ [s.scheduledTasks]⟩ tr := by
          show batchRun (batchStep s .done) tr = _
          rw [show batchStep s .done = ⟨0, 0, s.reported ++ [s.scheduledTasks]⟩ from by
            unfold batchStep; rw [if_pos hone]]
        have hpre' : ∀ n, ((tr.take n).count SchedEvent.done)
            ≤ 0 + (tr.take n).count SchedEvent.sched := by
          intro n
          have h := hpre (n + 1)
          rw [List.take_succ_cons, count_cons_same,
            count_cons_diff _ _ (by decide)] at h
          omega
        have ih' := ih ⟨0, 0, s.reported ++ [s.scheduledTasks]⟩ (by dsimp only; intro h; rfl) hpre'
        dsimp only at ih'
        refine ⟨?_, ?_, ?_⟩
        · rw [hrw, ih'.1, count_cons_same, count_cons_diff _ _ (by decide)]
          omega
        · rw [hrw, ih'.2.1, count_cons_diff _ _ (by decide)]
          simp [List.sum_append]
        · rw [hrw]
          exact ih'.2.2
      · have hrw : batchRun s (.done :: tr)
            = batchRun ⟨s.inflight - 1, s.scheduledTasks, s.reported⟩ tr := by
          show batchRun (batchStep s .done) tr = _
          rw [show batchStep s .done = ⟨s.inflight - 1, s.scheduledTasks, s.reported⟩ from by
            unfold batchStep; rw [if_neg hone]]
        have hpre' : ∀ n, ((tr.take n).count SchedEvent.done)
            ≤ s.inflight - 1 + (tr.take n).count SchedEvent.sched := by
          intro n
          have h := hpre (n + 1)
          rw [List.take_succ_cons, count_cons_same,
            count_cons_diff _ _ (by decide)] at h
          omega
        have ih' := ih ⟨s.inflight - 1, s.scheduledTasks, s.reported⟩
          (by dsimp only; omega) hpre'
        dsimp only at ih'
        refine ⟨?_, ?_, ?_⟩
        · rw [hrw, ih'.1, count_cons_same, count_cons_diff _ _ (by decide)]
          omega
        · rw [hrw, ih'.2.1, count_cons_diff _ _ (by decide)]
        · rw [hrw]
          exact ih'.2.2

/-- Fine-grained events of the same accounting, splitting the completion
epilogue into its separate atomic operations (the code remarks this path is
"not super race-condition-safe"): the `fetch_sub`, the load of the
accumulated total, the store of zero, and the publication. -/
inductive FineEvent where
  | sched
  | done
  | repLoad
  | repStore
  | repPublish
deriving DecidableEq, Repr

/-- Stage of the pending reporting block of the execution that brought the
in-flight counter to zero. -/
inductive RepStage where
  | entered
  | loaded (total : Nat)
  | stored (total : Nat)
deriving DecidableEq, Repr

/-- Fine-grained accounting state. -/
structure FineState where
  inflight : Nat
  scheduledTasks : Nat
  rep : Option RepStage
  reported : List Nat
deriving DecidableEq, Repr

/-- One fine-grained step; `none` marks a step that is not enabled (a
completion with nothing in flight, or overlapping reporting blocks, which
this model excludes). -/
def fineStep (s : FineState) : FineEvent → Option FineState
  | .sched => some { s with inflight := s.inflight + 1,
                            scheduledTasks := s.scheduledTasks + 1 }
  | .done =>
    if s.inflight = 0 then none
    else if s.inflight = 1 then
      match s.rep with
      | none => some { s with inflight := 0, rep := some .entered }
      | some _ => none
    else some { s with inflight := s.inflight - 1 }
  | .repLoad =>
    match s.rep with
    | some .entered => some { s with rep := some (.loaded s.scheduledTasks) }
    | _ => none
  | .repStore =>
    match s.rep with
    | some (.loaded t) => some { s with scheduledTasks := 0, rep := some (.stored t) }
    | _ => none
  | .repPublish =>
    match s.rep with
    | some (.stored t) => some { s with reported := s.reported ++ [t], rep := none }
    | _ => none

/-- Run the fine-grained accounting over a trace. -/
def fineRun (s : FineState) : List FineEvent → Option FineState
  | [] => some s
  | e :: tr =>
    match fineStep s e with
    | none => none
    | some s1 => fineRun s1 tr

/-- C4 counterexample: with the epilogue's load and store of the
`scheduled_tasks` total modelled as the separate atomic operations they are,
a `schedule` call that lands between the load and the store is lost: two
root task executions yield batch reports summing to 1, not 2. -/
theorem C4_counterexample :
    fineRun ⟨0, 0, none, []⟩
        [.sched, .done, .repLoad, .sched, .repStore, .repPublish,
          .done, .repLoad, .repStore, .repPublish]
      = some ⟨0, 0, none, [1, 0]⟩ ∧
    ([FineEvent.sched, .done, .repLoad, .sched, .repStore, .repPublish,
      .done, .repLoad, .repStore, .repPublish].count .sched) = 2 ∧
    ¬ ([1, 0].sum = 2) := by
  refine ⟨rfl, rfl, by decide⟩

/-- C4 amended: provided no `schedule` call interleaves a completion
epilogue (the decrement, total read, reset and publication of one batch are
contiguous, which the batch-granularity model makes one step), a trace that
schedules K tasks and completes all K — with completions never outnumbering
schedules in any prefix — reports batch counts that sum to exactly K, and
ends with the in-flight counter at zero. -/
theorem C4_quiescence_amended (tr : List SchedEvent) (K : Nat)
    (hK : tr.count .sched = K) (hdone : tr.count .done = K)
    (hvalid : ∀ n, ((tr.take n).count .done) ≤ (tr.take n).count .sched) :
    (batchRun ⟨0, 0, []⟩ tr).reported.sum = K ∧
    (batchRun ⟨0, 0, []⟩ tr).inflight = 0 := by
  have h := batchRun_invariant tr ⟨0, 0, []⟩ (by simp) (by simpa using hvalid)
  dsimp only at h
  have hinf : (batchRun ⟨0, 0, []⟩ tr).inflight = 0 := by
    rw [h.1]; omega
  have hst := h.2.2 hinf
  have hsum := h.2.1
  rw [hst] at hsum
  simp at hsum
  exact ⟨by omega, hinf⟩

theorem C4_quiescence_amended_witness :
    (batchRun ⟨0, 0, []⟩ [.sched, .sched, .done, .sched, .done, .done]).reported.sum = 3 ∧
    (batchRun ⟨0, 0, []⟩ [.sched, .sched, .done, .sched, .done, .done]).inflight = 0 :=
  C4_quiescence_amended [.sched, .sched, .done, .sched, .done, .done] 3 rfl rfl
    (by intro n; rcases n with _ | _ | _ | _ | _ | _ | _ <;> simp [List.take_succ_cons])

/-- Operations on the task-local `TASKS_TO_NOTIFY` queue (manager.rs lines
302-321): `schedule_notify_tasks` extends the pending list with an iterator
of task ids; `notify_scheduled_tasks` takes the whole list and calls
`dependent_slot_updated` on each entry. -/
inductive NotifyOp where
  | enqueue (tasks : List Nat)
  | notify
deriving DecidableEq, Repr

/-- The pending `TASKS_TO_NOTIFY` list together with the log, per
`notify_scheduled_tasks` run, of the tasks on which
`dependent_slot_updated` was called, in call order. -/
structure NotifyState where
  pending : List Nat
  batches : List (List Nat)
deriving DecidableEq, Repr

/-- `schedule_notify_tasks` appends (`Vec::extend`, no deduplication);
`notify_scheduled_tasks` takes the list and calls `dependent_slot_updated`
once per entry, in order. -/
def notifyStep (s : NotifyState) : NotifyOp → NotifyState
  | .enqueue ts => { s with pending := s.pending ++ ts }
  | .notify => { pending := [], batches := s.batches ++ [s.pending] }

/-- Run a sequence of notification operations. -/
def notifyRun (s : NotifyState) (ops : List NotifyOp) : NotifyState :=
  ops.foldl notifyStep s

theorem notifyRun_enqueues (lss : List (List Nat)) (s : NotifyState) :
    notifyRun s (lss.map NotifyOp.enqueue) = ⟨s.pending ++ lss.flatten, s.batches⟩ := by
  induction lss generalizing s with
  | nil => simp [notifyRun]
  | cons l ls ih =>
    show notifyRun ⟨s.pending ++ l, s.batches⟩ (ls.map NotifyOp.enqueue) = _
    rw [ih]
    simp

/-- C5 counterexample: the Manager does not deduplicate the notification
queue — a task enqueued twice via `schedule_notify_tasks` within one batch
receives two `dependent_slot_updated` calls when `notify_scheduled_tasks`
runs, refuting "notified at most once per batch". -/
theorem C5_counterexample :
    (notifyRun ⟨[], []⟩ [.enqueue [5], .enqueue [5], .notify]).batches = [[5, 5]] ∧
    [5, 5].count 5 = 2 ∧ ¬ ([5, 5].count 5 ≤ 1) := ⟨rfl, rfl, by decide⟩

/-- C5 amended: invalidation notifications are batched by the Manager:
every task enqueued via `schedule_notify_tasks` since the previous flush
gets `dependent_slot_updated` called on it when `notify_scheduled_tasks`
runs, the queue is emptied, and a task enqueued n times within one batch is
notified exactly n times — the Manager batches but does not deduplicate. -/
theorem count_flatten_sum (t : Nat) (lss : List (List Nat)) :
    lss.flatten.count t = (lss.map (fun l => l.count t)).sum := by
  induction lss with
  | nil => simp
  | cons l ls ih => simp [List.count_append, ih]

theorem C5_notify_amended (lss : List (List Nat)) (s0 : NotifyState)
    (h0 : s0.pending = []) :
    (notifyRun s0 (lss.map NotifyOp.enqueue ++ [NotifyOp.notify])).batches
        = s0.batches ++ [lss.flatten] ∧
    (notifyRun s0 (lss.map NotifyOp.enqueue ++ [NotifyOp.notify])).pending = [] ∧
    (∀ t, (lss.flatten).count t = (lss.map (fun l => l.count t)).sum) ∧
    (∀ t l, l ∈ lss → t ∈ l → t ∈ lss.flatten) := by
  have hrw : notifyRun s0 (lss.map NotifyOp.enqueue ++ [NotifyOp.notify])
      = notifyStep (notifyRun s0 (lss.map NotifyOp.enqueue)) .notify := by
    simp [notifyRun, List.foldl_append]
  rw [hrw, notifyRun_enqueues, h0]
  refine ⟨rfl, rfl, ?_, ?_⟩
  · intro t
    exact count_flatten_sum t lss
  · intro t l hl ht
    exact List.mem_flatten.mpr ⟨l, hl, ht⟩

theorem C5_notify_amended_witness :
    (notifyRun ⟨[], []⟩ ([[5], [5, 6]].map NotifyOp.enqueue ++ [NotifyOp.notify])).batches
        = [] ++ [[[5], [5, 6]].flatten] ∧
    (notifyRun ⟨[], []⟩ ([[5], [5, 6]].map NotifyOp.enqueue ++ [NotifyOp.notify])).pending = [] ∧
    (∀ t, ([[5], [5, 6]].flatten : List Nat).count t
        = ([[5], [5, 6]].map (fun l => l.count t)).sum) ∧
    (∀ t l, l ∈ [[5], [5, 6]] → t ∈ l → t ∈ ([[5], [5, 6]] : List (List Nat)).flatten) :=
  C5_notify_amended [[5], [5, 6]] ⟨[], []⟩ rfl

/-- The per-execution state touched by `TurboTasks::schedule` (manager.rs
lines 204-255): the two counters, the task's output cell, and counts of the
notification flushes, of the `execution_completed` calls and of the
decrements of the in-flight counter. The storing of the produced value or
error as the task's output (`task.execution_result(result)`) is modelled
from the spec, task.rs not being among the sources. -/
structure ExecState where
  currentlyScheduled : Nat
  scheduledTasks : Nat
  output : Option (Except String RawVc)
  notifyRuns : Nat
  completedRuns : Nat
  decrements : Nat
deriving Repr

/-- Embeds one `schedule` call together with its spawned execution:
increment both counters; if `execution_started` agrees, run the body and
store its result — value or error — as the task's output, flush
notifications and run `execution_completed`; in every case decrement the
in-flight counter once at the end. -/
def schedule (s : ExecState) (started : Bool) (result : Except String RawVc) :
    ExecState :=
  let s1 : ExecState :=
    { s with currentlyScheduled := s.currentlyScheduled + 1,
             scheduledTasks := s.scheduledTasks + 1 }
  let s2 : ExecState :=
    if started then
      { s1 with output := some result,
                notifyRuns := s1.notifyRuns + 1,
                completedRuns := s1.completedRuns + 1 }
    else s1
  { s2 with currentlyScheduled := s2.currentlyScheduled - 1,
            decrements := s2.decrements + 1 }

/-- C7: every scheduled execution leaves the in-flight counter balanced —
the decrement paired with `schedule`'s increment runs exactly once, also
when `execution_started` declines the run; when the body ran, its result —
value or error alike — is stored as the task's output (never propagated as
an exception), dependent notification is flushed and `execution_completed`
runs; a declined run touches neither output nor notification. -/
theorem C7_schedule_execution (s : ExecState) (started : Bool)
    (result : Except String RawVc) :
    (schedule s started result).currentlyScheduled = s.currentlyScheduled ∧
    (schedule s started result).decrements = s.decrements + 1 ∧
    (schedule s started result).scheduledTasks = s.scheduledTasks + 1 ∧
    (started = true →
      (schedule s started result).output = some result ∧
      (schedule s started result).notifyRuns = s.notifyRuns + 1 ∧
      (schedule s started result).completedRuns = s.completedRuns + 1) ∧
    (started = false →
      (schedule s started result).output = s.output ∧
      (schedule s started result).notifyRuns = s.notifyRuns ∧
      (schedule s started result).completedRuns = s.completedRuns) := by
  cases started <;> simp [schedule]

theorem C7_schedule_execution_witness :
    (schedule ⟨0, 0, none, 0, 0, 0⟩ true (Except.error "boom")).output
        = some (Except.error "boom") ∧
    (schedule ⟨0, 0, none, 0, 0, 0⟩ true (Except.error "boom")).currentlyScheduled = 0 ∧
    (schedule ⟨0, 0, none, 0, 0, 0⟩ false (Except.ok (RawVc.taskOutput 1))).output = none ∧
    (schedule ⟨0, 0, none, 0, 0, 0⟩ false (Except.ok (RawVc.taskOutput 1))).decrements = 1 :=
  ⟨((C7_schedule_execution ⟨0, 0, none, 0, 0, 0⟩ true (Except.error "boom")).2.2.2.1 rfl).1,
    (C7_schedule_execution ⟨0, 0, none, 0, 0, 0⟩ true (Except.error "boom")).1,
    ((C7_schedule_execution ⟨0, 0, none, 0, 0, 0⟩ false
      (Except.ok (RawVc.taskOutput 1))).2.2.2.2 rfl).1,
    (C7_schedule_execution ⟨0, 0, none, 0, 0, 0⟩ false
      (Except.ok (RawVc.taskOutput 1))).2.1⟩

end Turbo

namespace Turbo

/-- A slot as the compare-on-write policy needs it: the current value, if
the slot has been written before, and the slot's dependent task set.
Modelled from the spec: slot.rs is not among the provided sources; the
`value` macro with shared slot mode (turbo-tasks-macros/src/lib.rs lines
314-342) updates slots through `compare_and_update_shared`. -/
structure Slot (V : Type) where
  value : Option V
  dependent_tasks : List Nat
deriving Repr

/-- Modelled from the spec (section 4.5, overwrite-if-unequal): replace the
slot value only when the new value is unequal to the current one; when a
replacement happens, the tasks of the slot's dependent set are handed to
`schedule_notify_tasks`, otherwise nothing is scheduled. Returns the
updated slot and the scheduled task list. -/
def compare_and_update_shared {V : Type} [DecidableEq V] (slot : Slot V) (content : V) :
    Slot V × List Nat :=
  match slot.value with
  | some current =>
    if current = content then (slot, [])
    else ({ slot with value := some content }, slot.dependent_tasks)
  | none => ({ slot with value := some content }, slot.dependent_tasks)

/-- C2: for a slot written under the overwrite-if-unequal policy,
re-executing the owning task with a value equal to the slot's current value
schedules no dependent task and leaves the slot untouched, while an unequal
value replaces the slot value and schedules every task of the slot's
dependent set exactly once. -/
theorem C2_compare_on_write {V : Type} [DecidableEq V] (slot : Slot V) (v w : V)
    (hv : slot.value = some v) (hnodup : slot.dependent_tasks.Nodup) :
    (v = w →
      (compare_and_update_shared slot w).2 = [] ∧
      (compare_and_update_shared slot w).1 = slot) ∧
    (v ≠ w →
      (compare_and_update_shared slot w).2 = slot.dependent_tasks ∧
      (compare_and_update_shared slot w).1.value = some w ∧
      ∀ t ∈ slot.dependent_tasks, (compare_and_update_shared slot w).2.count t = 1) := by
  constructor
  · intro h
    subst h
    simp [compare_and_update_shared, hv]
  · intro h
    refine ⟨?_, ?_, ?_⟩
    · simp [compare_and_update_shared, hv, h]
    · simp [compare_and_update_shared, hv, h]
    · intro t ht
      have : (compare_and_update_shared slot w).2 = slot.dependent_tasks := by
        simp [compare_and_update_shared, hv, h]
      rw [this]
      exact List.count_eq_one_of_mem hnodup ht

theorem C2_compare_on_write_witness :
    ((compare_and_update_shared (⟨some 1, [3, 4]⟩ : Slot Nat) 1).2 = [] ∧
      (compare_and_update_shared (⟨some 1, [3, 4]⟩ : Slot Nat) 1).1 = ⟨some 1, [3, 4]⟩) ∧
    ((compare_and_update_shared (⟨some 1, [3, 4]⟩ : Slot Nat) 2).2 = [3, 4] ∧
      (compare_and_update_shared (⟨some 1, [3, 4]⟩ : Slot Nat) 2).1.value = some 2 ∧
      ∀ t ∈ [3, 4], ((compare_and_update_shared (⟨some 1, [3, 4]⟩ : Slot Nat) 2).2.count t = 1)) :=
  ⟨(C2_compare_on_write ⟨some 1, [3, 4]⟩ 1 1 rfl (by decide)).1 rfl,
    (C2_compare_on_write ⟨some 1, [3, 4]⟩ 1 2 rfl (by decide)).2 (by decide)⟩

/-- Program counter of a background job spawned through
`schedule_background_job` (manager.rs lines 284-300): before the first
counter check; after creating the event listener; parked on the listener;
past the gate; executing the job body. -/
inductive BgPc where
  | start
  | subscribed
  | waiting
  | ready
  | running
deriving DecidableEq, Repr

/-- State of the background-job gate: the `currently_scheduled_tasks`
counter, the job's program counter, whether the job's listener has been
notified since its creation, and a history bit recording whether the
counter has reached — or been observed at — zero since the job was
scheduled. -/
structure BgState where
  counter : Nat
  pc : BgPc
  notified : Bool
  zeroSeen : Bool
deriving DecidableEq, Repr

/-- Actions interleaving with the gate: a `schedule` call incrementing the
counter; a completion epilogue decrementing it and notifying listeners when
it reaches zero (manager.rs lines 240-252); and the job's own steps from
manager.rs lines 291-297: the first load, the re-check after creating the
listener, waking from the listener, and beginning `job.await`. -/
inductive BgAct where
  | schedTask
  | completeTask
  | check1
  | check2
  | wake
  | startJob
deriving DecidableEq, Repr

/-- One interleaved step of the background-job gate; `none` marks an action
that is not enabled in the given state. -/
def bgStep (s : BgState) : BgAct → Option BgState
  | .schedTask => some { s with counter := s.counter + 1 }
  | .completeTask =>
    if s.counter = 0 then none
    else if s.counter - 1 = 0 then
      some { s with counter := 0, zeroSeen := true,
                    notified := s.notified || (s.pc = .subscribed || s.pc = .waiting) }
    else some { s with counter := s.counter - 1 }
  | .check1 =>
    match s.pc with
    | .start =>
      if s.counter = 0 then some { s with pc := .ready, zeroSeen := true }
      else some { s with pc := .subscribed, notified := false }
    | _ => none
  | .check2 =>
    match s.pc with
    | .subscribed =>
      if s.counter = 0 then some { s with pc := .ready, zeroSeen := true }
      else some { s with pc := .waiting }
    | _ => none
  | .wake =>
    match s.pc with
    | .waiting => if s.notified then some { s with pc := .ready } else none
    | _ => none
  | .startJob =>
    match s.pc with
    | .ready => some { s with pc := .running }
    | _ => none

/-- Run the gate under a sequence of interleaved actions. -/
def bgRun (s : BgState) : List BgAct → Option BgState
  | [] => some s
  | a :: acts =>
    match bgStep s a with
    | none => none
    | some s1 => bgRun s1 acts

/-- Initial state: the job is scheduled while `c0` tasks are in flight. -/
def bgInit (c0 : Nat) : BgState := ⟨c0, .start, false, decide (c0 = 0)⟩

/-- The gate invariant: once the counter has reached zero — or the job is
past the gate — the history bit is set. -/
def BgInv (s : BgState) : Prop :=
  (s.counter = 0 → s.zeroSeen = true) ∧
  (s.notified = true → s.zeroSeen = true) ∧
  ((s.pc = .ready ∨ s.pc = .running) → s.zeroSeen = true)

theorem bgStep_inv (s s' : BgState) (a : BgAct) (h : bgStep s a = some s')
    (hinv : BgInv s) : BgInv s' := by
  obtain ⟨h1, h2, h3⟩ := hinv
  cases a <;> simp only [bgStep] at h <;> (repeat' split at h) <;>
    first
      | exact Option.noConfusion h
      | (injection h with h; subst h;
         refine ⟨?_, ?_, ?_⟩ <;> dsimp only <;> intro hx <;>
           first
             | rfl
             | exact h1 hx
             | exact h2 hx
             | exact h3 hx
             | omega
             | simp_all)

theorem bgRun_inv (acts : List BgAct) (s0 s : BgState)
    (h : bgRun s0 acts = some s) (hinv : BgInv s0) : BgInv s := by
  induction acts generalizing s0 with
  | nil =>
    simp only [bgRun] at h
    injection h with h
    subst h
    exact hinv
  | cons a acts ih =>
    simp only [bgRun] at h
    cases hs : bgStep s0 a with
    | none => rw [hs] at h; exact absurd h (by simp)
    | some s1 =>
      rw [hs] at h
      exact ih s1 h (bgStep_inv s0 s1 a hs hinv)

/-- C6 counterexample: a job scheduled while one task is in flight parks on
the listener; the task completes (counter zero, listener notified), a new
task is scheduled, and the woken job begins its body while the in-flight
counter is 1 — refuting "never begins executing its body while the
in-flight task counter is nonzero". -/
theorem C6_counterexample :
    bgRun (bgInit 1) [.check1, .check2, .completeTask, .schedTask, .wake, .startJob]
      = some ⟨1, .running, true, true⟩ ∧ (1 : Nat) ≠ 0 :=
  ⟨rfl, by decide⟩

/-- C6 amended: a background job's body begins only after the in-flight
counter has reached — or been observed at — zero at some point since the
job was scheduled; a task scheduled after that moment can make the counter
nonzero again by the time the body starts. -/
theorem C6_bg_gate_amended (c0 : Nat) (acts : List BgAct) (s : BgState)
    (h : bgRun (bgInit c0) acts = some s) (hpc : s.pc = .ready ∨ s.pc = .running) :
    s.zeroSeen = true := by
  have hinv0 : BgInv (bgInit c0) := by
    refine ⟨?_, ?_, ?_⟩ <;> simp [bgInit]
  exact (bgRun_inv acts _ s h hinv0).2.2 hpc

theorem C6_bg_gate_amended_witness :
    (⟨0, .running, false, true⟩ : BgState).zeroSeen = true :=
  C6_bg_gate_amended 0 [.check1, .startJob] ⟨0, .running, false, true⟩ rfl (Or.inr rfl)

end Turbo

namespace Turbo

/-- A universe of concrete value types for the type-erased `MagicAny`
embedding (magic_any.rs): each dynamic `TypeId` (a natural; distinct Rust
types have distinct `TypeId`s) carries a value type together with the
capability bundle required by the blanket
`impl<T: Debug + Eq + Ord + Hash> MagicAny for T`: the type's own equality,
ordering and hashing. -/
structure MagicUniverse where
  Val : Nat → Type
  beqv : (t : Nat) → Val t → Val t → Bool
  cmpv : (t : Nat) → Val t → Val t → Ordering
  hashv : (t : Nat) → Val t → Nat

/-- A value behind a `dyn MagicAny` handle: its dynamic `TypeId` and the
value itself. -/
structure MagicAnyVal (U : MagicUniverse) where
  ty : Nat
  val : U.Val ty

/-- Embeds `magic_eq` (magic_any.rs lines 34-39): `downcast_ref::<Self>`
succeeds exactly when the other value's dynamic type equals `Self`; on
failure the result is `false`, on success the type's own equality
decides. -/
def magic_eq {U : MagicUniverse} (a b : MagicAnyVal U) : Bool :=
  if h : b.ty = a.ty then U.beqv a.ty a.val (h ▸ b.val) else false

/-- Embeds `magic_hash` (magic_any.rs lines 41-43): hashes the pair of the
`TypeId` and the value; `pairHash` stands for the hasher's digest of that
pair, fed with the type tag and the value's own hash. -/
def magic_hash {U : MagicUniverse} (pairHash : Nat → Nat → Nat) (a : MagicAnyVal U) : Nat :=
  pairHash a.ty (U.hashv a.ty a.val)

/-- Embeds `magic_cmp` (magic_any.rs lines 45-50): values of different
dynamic types are ordered by their `TypeId`s, values of the same dynamic
type by the type's own `Ord`. -/
def magic_cmp {U : MagicUniverse} (a b : MagicAnyVal U) : Ordering :=
  if h : b.ty = a.ty then U.cmpv a.ty a.val (h ▸ b.val) else compare a.ty b.ty

/-- C10: the type-erased equality is consistent: values of different
dynamic types are never equal; values of the same dynamic type are compared
by that type's own equality; whenever `magic_eq` holds — and the per-type
hash respects the per-type equality, the contract Rust's `Hash`/`Eq`
impose — both values hash identically, since both hash the `TypeId`
together with the value; and `magic_cmp` returns `eq` exactly when
`magic_eq` holds, provided the per-type `Ord` agrees with the per-type
equality, so the `Eq`/`Ord`/`Hash` instances of `dyn MagicAny` are
lawful. -/
theorem C10_magic_any_lawful (U : MagicUniverse) (pairHash : Nat → Nat → Nat)
    (a b : MagicAnyVal U) :
    (a.ty ≠ b.ty → magic_eq a b = false) ∧
    (∀ (t : Nat) (x y : U.Val t),
      magic_eq (⟨t, x⟩ : MagicAnyVal U) ⟨t, y⟩ = U.beqv t x y) ∧
    ((∀ t (x y : U.Val t), U.beqv t x y = true → U.hashv t x = U.hashv t y) →
      magic_eq a b = true → magic_hash pairHash a = magic_hash pairHash b) ∧
    ((∀ t (x y : U.Val t), U.cmpv t x y = .eq ↔ U.beqv t x y = true) →
      (magic_cmp a b = .eq ↔ magic_eq a b = true)) := by
  obtain ⟨ta, va⟩ := a
  obtain ⟨tb, vb⟩ := b
  refine ⟨?_, ?_, ?_, ?_⟩
  · intro hne
    simp only [magic_eq]
    rw [dif_neg]
    intro he
    exact hne (by simp [he])
  · intro t x y
    simp [magic_eq]
  · intro hcoh he
    simp only [magic_eq] at he
    split at he
    · rename_i h
      subst h
      simp only [magic_hash]
      rw [hcoh _ _ _ he]
    · exact absurd he (by simp)
  · intro hiff
    simp only [magic_cmp, magic_eq]
    split
    · rename_i h
      subst h
      exact hiff _ _ _
    · rename_i h
      constructor
      · intro hc
        exact absurd (Nat.compare_eq_eq.mp hc) (fun he => h he.symm)
      · intro hf
        exact absurd hf (by simp)

/-- A concrete universe: every dynamic type is `Nat` with its standard
equality, ordering and identity hash. -/
@[reducible] def natUniverse : MagicUniverse :=
  ⟨fun _ => Nat, fun _ x y => x == y, fun _ x y => compare x y, fun _ x => x⟩

theorem C10_magic_any_lawful_witness :
    (magic_eq (⟨0, 5⟩ : MagicAnyVal natUniverse) (⟨1, 5⟩ : MagicAnyVal natUniverse)
        = false) ∧
    (magic_eq (⟨0, 5⟩ : MagicAnyVal natUniverse) (⟨0, 5⟩ : MagicAnyVal natUniverse)
        = (5 == 5)) ∧
    (magic_hash (fun t h => t + h) (⟨0, 5⟩ : MagicAnyVal natUniverse)
        = magic_hash (fun t h => t + h) (⟨0, 5⟩ : MagicAnyVal natUniverse)) ∧
    (magic_cmp (⟨0, 5⟩ : MagicAnyVal natUniverse) (⟨0, 5⟩ : MagicAnyVal natUniverse) = .eq ↔
      magic_eq (⟨0, 5⟩ : MagicAnyVal natUniverse) (⟨0, 5⟩ : MagicAnyVal natUniverse)
        = true) := by
  have h := C10_magic_any_lawful natUniverse (fun t h => t + h)
  exact ⟨(h ⟨0, 5⟩ ⟨1, 5⟩).1 (by decide),
    (h ⟨0, 5⟩ ⟨0, 5⟩).2.1 0 5 5,
    (h ⟨0, 5⟩ ⟨0, 5⟩).2.2.1 (fun t x y hxy => by simpa using hxy) (by decide),
    (h ⟨0, 5⟩ ⟨0, 5⟩).2.2.2 (fun t x y => by
      constructor
      · intro hc
        simpa using Nat.compare_eq_eq.mp hc
      · intro hb
        exact Nat.compare_eq_eq.mpr (by simpa using hb))⟩

end Turbo

namespace Turbo

/-- The stats table as `treeify` consumes it: for each bucket (a `TaskType`,
identified by a natural), the list of buckets it references with
`ReferenceType::Child` (the `Child`-typed keys of its `references` map;
a set, hence duplicate-free, in the source). Task statistics payloads are
carried along by the source but do not influence placement, so the
embedding tracks bucket identities. -/
abbrev StatsTable : Type := List (Nat × List Nat)

/-- The bucket set of the table. -/
def statsKeys (stats : StatsTable) : List Nat := stats.map (fun e => e.1)

/-- The `Child` reference targets of one bucket (`self.tasks[ty]`,
`references` filtered to `Child`); `none` when the bucket is missing, which
makes the source panic. -/
def childrenOf (stats : StatsTable) (ty : Nat) : Option (List Nat) :=
  (stats.find? (fun e => e.1 = ty)).map (fun e => e.2)

/-- Embeds the root computation (stats.rs lines 170-177): every bucket that
is no `Child` reference target of any bucket. -/
def statsRoots (stats : StatsTable) : List Nat :=
  (statsKeys stats).filter (fun b => stats.all (fun e => ! e.2.contains b))

/-- Lookup in the `task_placement` map. -/
def placeLookup (pl : List (Nat × Option Nat)) (ty : Nat) : Option (Option Nat) :=
  (pl.find? (fun e => e.1 = ty)).map (fun e => e.2)

/-- Update the placement of an already-placed bucket in `task_placement`. -/
def placeUpdate (pl : List (Nat × Option Nat)) (ty : Nat) (p : Option Nat) :
    List (Nat × Option Nat) :=
  pl.map (fun e => if e.1 = ty then (ty, p) else e)

/-- Embeds `get_path` (stats.rs lines 182-197): the chain of placements
from a root down to the given bucket; `none` for the empty placement, the
path of a bucket otherwise, built by following `task_placement` upward. The
fuel bounds the loop; exhaustion or a missing placement entry models the
panic or divergence of the source. -/
def get_path (pl : List (Nat × Option Nat)) : Nat → Option Nat → Option (List Nat)
  | _, none => some []
  | 0, some _ => none
  | fuel + 1, some ty =>
    match placeLookup pl ty with
    | none => none
    | some p =>
      match get_path pl fuel p with
      | none => none
      | some path => some (path ++ [ty])

/-- The descending scan of `find_common` (stats.rs lines 198-209). -/
def find_common_go (p1 p2 : List Nat) : Nat → Option Nat
  | 0 => none
  | i + 1 =>
    match p1.get? i, p2.get? i with
    | some a, some b => if a = b then some a else find_common_go p1 p2 i
    | _, _ => find_common_go p1 p2 i

/-- Embeds `find_common`: scan from `min(len) - 1` downward and return the
first position where the two paths agree. -/
def find_common (p1 p2 : List Nat) : Option Nat :=
  find_common_go p1 p2 (min p1.length p2.length)

/-- The specification-side notion the claim uses: the deepest element of the
first path that the second path shares, `none` when they share no node. -/
def deepestShared (p1 p2 : List Nat) : Option Nat :=
  p1.reverse.find? (fun x => p2.contains x)

/-- A re-placement event of the `treeify` loop: the path of the proposed
placement, the path of the current placement, and the placement chosen. -/
structure ReplaceEvent where
  path1 : List Nat
  path2 : List Nat
  chosen : Option Nat
deriving DecidableEq, Repr

/-- State of the `treeify` breadth-first loop: `task_placement` (as an
insertion-ordered association list), the work queue of
`(bucket, proposed placement)` pairs, and the log of re-placements. -/
structure TreeifyState where
  placement : List (Nat × Option Nat)
  queue : List (Nat × Option Nat)
  events : List ReplaceEvent
deriving DecidableEq, Repr

/-- Embeds the `while let Some((ty, placement)) = queue.pop_front()` loop of
`treeify` (stats.rs lines 210-231). A vacant bucket is placed and its
`Child` targets are enqueued under it; an occupied bucket whose proposed
placement differs from the stored one is re-placed at
`find_common(get_path(proposed), get_path(current))`. `none` models fuel
exhaustion or one of the source's panics (a bucket missing from `tasks` or
from `task_placement`). -/
def treeifyLoop (stats : StatsTable) : Nat → TreeifyState → Option TreeifyState
  | 0, _ => none
  | fuel + 1, s =>
    match s.queue with
    | [] => some s
    | (ty, pl) :: rest =>
      match placeLookup s.placement ty with
      | some current =>
        if pl = current then treeifyLoop stats fuel { s with queue := rest }
        else
          match get_path s.placement s.placement.length pl,
              get_path s.placement s.placement.length current with
          | some p1, some p2 =>
            treeifyLoop stats fuel
              { placement := placeUpdate s.placement ty (find_common p1 p2),
                queue := rest,
                events := s.events ++ [⟨p1, p2, find_common p1 p2⟩] }
          | _, _ => none
      | none =>
        match childrenOf stats ty with
        | none => none
        | some childs =>
          treeifyLoop stats fuel
            { placement := s.placement ++ [(ty, pl)],
              queue := rest ++ childs.map (fun c => (c, some ty)),
              events := s.events }

/-- Enough fuel for the loop: at most one pop per root entry plus one per
`Child` reference of a placed bucket, plus the final empty-queue check. -/
def bfsFuel (stats : StatsTable) : Nat :=
  2 * stats.length + (stats.map (fun e => e.2.length)).sum + 1

/-- One step of the grouping `children.entry(parent).or_default().push(child)`
(stats.rs lines 233-236). -/
def groupAdd (m : List (Option Nat × List Nat)) (p : Option Nat) (c : Nat) :
    List (Option Nat × List Nat) :=
  match m with
  | [] => [(p, [c])]
  | e :: rest => if e.1 = p then (e.1, e.2 ++ [c]) :: rest else e :: groupAdd rest p c

/-- The `children` map: placements grouped by parent. -/
def childrenMap (pl : List (Nat × Option Nat)) : List (Option Nat × List Nat) :=
  pl.foldl (fun m e => groupAdd m e.2 e.1) []

/-- Lookup in the `children` map. -/
def groupLookup (m : List (Option Nat × List Nat)) (p : Option Nat) : Option (List Nat) :=
  (m.find? (fun e => e.1 = p)).map (fun e => e.2)

/-- Embeds `GroupTree` (stats.rs lines 260-266), carrying bucket identities:
the primary bucket of the group, the child groups, and the leaf buckets. -/
inductive GroupTree where
  | mk : Option Nat → List GroupTree → List Nat → GroupTree

/-- The primary bucket of a group. -/
def GroupTree.primary : GroupTree → Option Nat
  | .mk p _ _ => p

/-- The child groups of a group. -/
def GroupTree.childGroups : GroupTree → List GroupTree
  | .mk _ cs _ => cs

/-- The leaf buckets of a group. -/
def GroupTree.task_types : GroupTree → List Nat
  | .mk _ _ ts => ts

/-- Monadic map over `Option`, written out structurally so that the kernel
can evaluate it. -/
def optList {A B : Type} (f : A → Option B) : List A → Option (List B)
  | [] => some []
  | a :: as =>
    match f a, optList f as with
    | some b, some bs => some (b :: bs)
    | _, _ => none

/-- Embeds `into_group` (stats.rs lines 238-254): the group of `ty` holds
the buckets placed under `ty`; those that have buckets placed under them in
turn become child groups, the rest are leaves. The fuel bounds the
recursion depth; a missing `children` entry at the root call models the
`children[&ty]` panic (recursive calls only visit present entries). -/
def into_group (m : List (Option Nat × List Nat)) : Nat → Option Nat → Option GroupTree
  | 0, _ => none
  | fuel + 1, ty =>
    match groupLookup m ty with
    | none => none
    | some inner =>
      match optList (fun c => into_group m fuel (some c))
          (inner.filter (fun c => (groupLookup m (some c)).isSome)) with
      | none => none
      | some subs =>
        some (.mk ty subs (inner.filter (fun c => ! (groupLookup m (some c)).isSome)))

mutual

/-- All buckets appearing in a group tree: the primary, the leaves and the
contents of the child groups. -/
def flattenTree : GroupTree → List Nat
  | .mk p cs ts => p.toList ++ ts ++ flattenTrees cs

/-- All buckets appearing in a forest of group trees. -/
def flattenTrees : List GroupTree → List Nat
  | [] => []
  | t :: ts => flattenTree t ++ flattenTrees ts

end

/-- Embeds `Stats::treeify` (stats.rs lines 169-257): seed the queue with
the roots, run the placement loop, group the placements by parent and
assemble the tree from the root group. -/
def treeify (stats : StatsTable) : Option GroupTree :=
  match treeifyLoop stats (bfsFuel stats)
      ⟨[], (statsRoots stats).map (fun r => (r, none)), []⟩ with
  | none => none
  | some s => into_group (childrenMap s.placement) (s.placement.length + 1) none

/-- The re-placement events of a `treeify` run. -/
def treeifyEvents (stats : StatsTable) : Option (List ReplaceEvent) :=
  (treeifyLoop stats (bfsFuel stats)
    ⟨[], (statsRoots stats).map (fun r => (r, none)), []⟩).map (fun s => s.events)

end Turbo

namespace Turbo

/-- C9 counterexample: when every bucket lies on a `Child` cycle the root
set is empty, nothing is ever placed, and `treeify` fails on the
`children[&None]` lookup (a panic in the source) — no `GroupTree` results,
so the buckets 0 and 1 do not appear exactly once in a resulting tree. -/
theorem C9_counterexample :
    treeify [(0, [1]), (1, [0])] = none ∧
    (0 : Nat) ∈ statsKeys [(0, [1]), (1, [0])] ∧
    (1 : Nat) ∈ statsKeys [(0, [1]), (1, [0])] :=
  ⟨rfl, by decide, by decide⟩

/-- The buckets currently placed, in placement order. -/
def placedKeys (pl : List (Nat × Option Nat)) : List Nat := pl.map (fun e => e.1)

/-- Position of the entry of a bucket in `task_placement`. -/
def posOf : List (Nat × Option Nat) → Nat → Nat
  | [], _ => 0
  | e :: rest, x => if e.1 = x then 0 else posOf rest x + 1

/-- List prefix, written out to keep the development self-contained. -/
def isPre (a b : List Nat) : Prop := ∃ t, a ++ t = b

/-- The forest shape of `task_placement`: bucket entries are unique and
every recorded parent is itself placed, strictly earlier. -/
def PlacedOK (pl : List (Nat × Option Nat)) : Prop :=
  (placedKeys pl).Nodup ∧
  ∀ x p, placeLookup pl x = some (some p) →
    p ∈ placedKeys pl ∧ posOf pl p < posOf pl x

theorem placeLookup_isSome_iff (pl : List (Nat × Option Nat)) (x : Nat) :
    (placeLookup pl x).isSome = true ↔ x ∈ placedKeys pl := by
  induction pl with
  | nil => simp [placeLookup, placedKeys]
  | cons e rest ih =>
    by_cases he : e.1 = x
    · simp [placeLookup, placedKeys, List.find?, he]
    · simpa [placeLookup, placedKeys, List.find?, he, Ne.symm he] using ih

theorem placeLookup_eq_none_iff (pl : List (Nat × Option Nat)) (x : Nat) :
    placeLookup pl x = none ↔ x ∉ placedKeys pl := by
  rw [← placeLookup_isSome_iff]
  cases placeLookup pl x <;> simp

theorem posOf_lt_length (pl : List (Nat × Option Nat)) (x : Nat)
    (hx : x ∈ placedKeys pl) : posOf pl x < pl.length := by
  induction pl with
  | nil => simp [placedKeys] at hx
  | cons e rest ih =>
    by_cases he : e.1 = x
    · simp [posOf, he]
    · have hx' : x ∈ placedKeys rest := by
        simp [placedKeys] at hx ⊢
        rcases hx with h | h
        · exact absurd h.symm he
        · exact h
      have := ih hx'
      simp only [posOf, if_neg he, List.length_cons]
      omega

theorem get_at_posOf (pl : List (Nat × Option Nat)) (x : Nat)
    (hx : x ∈ placedKeys pl) :
    ∃ v, pl.get? (posOf pl x) = some (x, v) ∧ placeLookup pl x = some v := by
  induction pl with
  | nil => simp [placedKeys] at hx
  | cons e rest ih =>
    by_cases he : e.1 = x
    · refine ⟨e.2, ?_, ?_⟩
      · simp only [posOf, if_pos he, List.get?_cons_zero]
        rw [← he]
      · simp [placeLookup, List.find?, he]
    · have hx' : x ∈ placedKeys rest := by
        simp [placedKeys] at hx ⊢
        rcases hx with h | h
        · exact absurd h.symm he
        · exact h
      obtain ⟨v, h1, h2⟩ := ih hx'
      refine ⟨v, ?_, ?_⟩
      · simpa [posOf, if_neg he] using h1
      · simpa [placeLookup, List.find?, he] using h2

theorem placeUpdate_keys (pl : List (Nat × Option Nat)) (ty : Nat) (p : Option Nat) :
    placedKeys (placeUpdate pl ty p) = placedKeys pl := by
  induction pl with
  | nil => rfl
  | cons e rest ih =>
    simp only [placeUpdate, placedKeys, List.map_cons] at ih ⊢
    by_cases he : e.1 = ty
    · simpa [he] using ih
    · simpa [he] using ih

theorem posOf_update (pl : List (Nat × Option Nat)) (ty : Nat) (p : Option Nat)
    (x : Nat) : posOf (placeUpdate pl ty p) x = posOf pl x := by
  induction pl with
  | nil => rfl
  | cons e rest ih =>
    simp only [placeUpdate, List.map_cons]
    have htail : List.map (fun e => if e.1 = ty then (ty, p) else e) rest
        = placeUpdate rest ty p := rfl
    by_cases he : e.1 = ty
    · rw [if_pos he]
      by_cases hx : e.1 = x
      · have htx : ty = x := he.symm.trans hx
        simp [posOf, htx, hx]
      · have htx : ¬ ty = x := fun h => hx (he.trans h)
        simp only [posOf, if_neg htx, if_neg hx]
        rw [htail, ih]
    · rw [if_neg he]
      simp only [posOf]
      by_cases hx : e.1 = x
      · simp [hx]
      · simp only [if_neg hx]
        rw [htail, ih]

theorem placeLookup_update_self (pl : List (Nat × Option Nat)) (ty : Nat)
    (p : Option Nat) (hty : ty ∈ placedKeys pl) :
    placeLookup (placeUpdate pl ty p) ty = some p := by
  induction pl with
  | nil => simp [placedKeys] at hty
  | cons e rest ih =>
    by_cases he : e.1 = ty
    · simp [placeUpdate, placeLookup, List.find?, he]
    · have hty' : ty ∈ placedKeys rest := by
        simp [placedKeys] at hty ⊢
        rcases hty with h | h
        · exact absurd h.symm he
        · exact h
      simpa [placeUpdate, placeLookup, List.find?, he] using ih hty'

theorem placeLookup_cons_self (e : Nat × Option Nat) (rest : List (Nat × Option Nat))
    (x : Nat) (h : e.1 = x) : placeLookup (e :: rest) x = some e.2 := by
  simp [placeLookup, List.find?, h]

theorem placeLookup_cons_ne (e : Nat × Option Nat) (rest : List (Nat × Option Nat))
    (x : Nat) (h : ¬ e.1 = x) : placeLookup (e :: rest) x = placeLookup rest x := by
  simp [placeLookup, List.find?, h]

theorem placeLookup_update_other (pl : List (Nat × Option Nat)) (ty : Nat)
    (p : Option Nat) (x : Nat) (hx : x ≠ ty) :
    placeLookup (placeUpdate pl ty p) x = placeLookup pl x := by
  induction pl with
  | nil => rfl
  | cons e rest ih =>
    show placeLookup ((if e.1 = ty then (ty, p) else e) :: placeUpdate rest ty p) x
        = placeLookup (e :: rest) x
    by_cases he : e.1 = ty
    · rw [if_pos he, placeLookup_cons_ne _ _ _ (fun h => hx h.symm),
        placeLookup_cons_ne _ _ _ (fun h => hx ((h.symm.trans he).symm).symm)]
      exact ih
    · rw [if_neg he]
      by_cases hex : e.1 = x
      · rw [placeLookup_cons_self _ _ _ hex, placeLookup_cons_self _ _ _ hex]
      · rw [placeLookup_cons_ne _ _ _ hex, placeLookup_cons_ne _ _ _ hex]
        exact ih

theorem placeLookup_append_old (pl q : List (Nat × Option Nat)) (x : Nat)
    (hx : x ∈ placedKeys pl) :
    placeLookup (pl ++ q) x = placeLookup pl x := by
  induction pl with
  | nil => simp [placedKeys] at hx
  | cons e rest ih =>
    by_cases he : e.1 = x
    · simp [placeLookup, List.find?, he]
    · have hx' : x ∈ placedKeys rest := by
        simp [placedKeys] at hx ⊢
        rcases hx with h | h
        · exact absurd h.symm he
        · exact h
      simpa [placeLookup, List.find?, he] using ih hx'

theorem placeLookup_append_new (pl : List (Nat × Option Nat)) (ty : Nat)
    (p : Option Nat) (hty : ty ∉ placedKeys pl) :
    placeLookup (pl ++ [(ty, p)]) ty = some p := by
  induction pl with
  | nil => simp [placeLookup, List.find?]
  | cons e rest ih =>
    have he : ¬ e.1 = ty := by
      intro h
      exact hty (by simp [placedKeys, h])
    have hty' : ty ∉ placedKeys rest := fun h => hty (by simp [placedKeys] at h ⊢; right; exact h)
    simpa [placeLookup, List.find?, he] using ih hty'

theorem posOf_append_of_mem (pl q : List (Nat × Option Nat)) (x : Nat)
    (hx : x ∈ placedKeys pl) : posOf (pl ++ q) x = posOf pl x := by
  induction pl with
  | nil => simp [placedKeys] at hx
  | cons e rest ih =>
    by_cases he : e.1 = x
    · simp [posOf, he]
    · have hx' : x ∈ placedKeys rest := by
        simp [placedKeys] at hx ⊢
        rcases hx with h | h
        · exact absurd h.symm he
        · exact h
      simp [posOf, he, ih hx']

end Turbo

namespace Turbo

theorem isPre_refl (a : List Nat) : isPre a a := ⟨[], by simp⟩

theorem isPre_append_right (a b : List Nat) (t : List Nat) (h : isPre a b) :
    isPre a (b ++ t) := by
  obtain ⟨u, hu⟩ := h
  exact ⟨u ++ t, by rw [← hu, List.append_assoc]⟩

theorem get_path_none (pl : List (Nat × Option Nat)) (f : Nat) :
    get_path pl f none = some [] := by
  cases f <;> rfl

theorem get_path_mono (pl : List (Nat × Option Nat)) :
    ∀ f o p, get_path pl f o = some p → ∀ f', f ≤ f' → get_path pl f' o = some p := by
  intro f
  induction f with
  | zero =>
    intro o p h f' _
    cases o with
    | none => rw [get_path_none] at h ⊢; exact h
    | some ty => simp [get_path] at h
  | succ n ih =>
    intro o p h f' hf'
    cases o with
    | none => rw [get_path_none] at h ⊢; exact h
    | some ty =>
      obtain ⟨f'', rfl⟩ : ∃ m, f' = m + 1 := ⟨f' - 1, by omega⟩
      simp only [get_path] at h ⊢
      cases hl : placeLookup pl ty with
      | none =>
        rw [hl] at h
        simp at h
      | some q =>
        rw [hl] at h
        (try dsimp only at h ⊢)
        cases hq : get_path pl n q with
        | none =>
          rw [hq] at h
          simp at h
        | some path =>
          rw [hq] at h
          (try dsimp only at h)
          rw [ih q path hq f'' (by omega)]
          (try dsimp only)
          exact h

theorem get_path_ok_aux (pl : List (Nat × Option Nat)) (hP : PlacedOK pl) :
    ∀ n x, x ∈ placedKeys pl → posOf pl x < n →
      ∃ p, get_path pl (posOf pl x + 1) (some x) = some p ∧
        p.getLast? = some x ∧
        p.Nodup ∧
        (∀ z ∈ p, z ∈ placedKeys pl ∧ posOf pl z ≤ posOf pl x) ∧
        (∀ z ∈ p, ∃ pz, get_path pl (posOf pl z + 1) (some z) = some pz ∧ isPre pz p) ∧
        p.length ≤ posOf pl x + 1 := by
  intro n
  induction n with
  | zero => intro x hx h; omega
  | succ n ih =>
    intro x hx hlt
    obtain ⟨v, hget, hlook⟩ := get_at_posOf pl x hx
    cases v with
    | none =>
      refine ⟨[x], ?_, by simp, by simp, ?_, ?_, by simp⟩
      · simp only [get_path, hlook, get_path_none, List.nil_append]
      · intro z hz
        simp at hz
        subst hz
        exact ⟨hx, le_refl _⟩
      · intro z hz
        simp at hz
        subst hz
        refine ⟨[z], ?_, isPre_refl _⟩
        simp only [get_path, hlook, get_path_none, List.nil_append]
    | some q =>
      obtain ⟨hqmem, hqlt⟩ := hP.2 x q hlook
      obtain ⟨pq, hq1, hq2, hq3, hq4, hq5, hq6⟩ := ih q hqmem (by omega)
      have hqpath : get_path pl (posOf pl x) (some q) = some pq :=
        get_path_mono pl _ _ _ hq1 _ (by omega)
      have hxpath : get_path pl (posOf pl x + 1) (some x) = some (pq ++ [x]) := by
        simp only [get_path, hlook, hqpath]
      have hxnotin : x ∉ pq := by
        intro hmem
        have := (hq4 x hmem).2
        omega
      refine ⟨pq ++ [x], hxpath, by simp, ?_, ?_, ?_, by simp; omega⟩
      · simp [List.nodup_append, hq3, hxnotin]
      · intro z hz
        rcases List.mem_append.mp hz with hz | hz
        · obtain ⟨hz1, hz2⟩ := hq4 z hz
          exact ⟨hz1, by omega⟩
        · simp at hz
          subst hz
          exact ⟨hx, le_refl _⟩
      · intro z hz
        rcases List.mem_append.mp hz with hz | hz
        · obtain ⟨pz, hpz1, hpz2⟩ := hq5 z hz
          exact ⟨pz, hpz1, isPre_append_right _ _ _ hpz2⟩
        · simp at hz
          subst hz
          exact ⟨pq ++ [z], hxpath, isPre_refl _⟩

theorem get_path_ok (pl : List (Nat × Option Nat)) (hP : PlacedOK pl)
    (x : Nat) (hx : x ∈ placedKeys pl) :
    ∃ p, get_path pl (posOf pl x + 1) (some x) = some p ∧
      p.getLast? = some x ∧
      p.Nodup ∧
      (∀ z ∈ p, z ∈ placedKeys pl ∧ posOf pl z ≤ posOf pl x) ∧
      (∀ z ∈ p, ∃ pz, get_path pl (posOf pl z + 1) (some z) = some pz ∧ isPre pz p) ∧
      p.length ≤ posOf pl x + 1 :=
  get_path_ok_aux pl hP (posOf pl x + 1) x hx (by omega)

end Turbo

namespace Turbo

theorem nodup_get?_inj (l : List Nat) (hl : l.Nodup) :
    ∀ i j z, l.get? i = some z → l.get? j = some z → i = j := by
  induction l with
  | nil => intro i j z hi; simp at hi
  | cons a t ih =>
    intro i j z hi hj
    cases i with
    | zero =>
      cases j with
      | zero => rfl
      | succ j =>
        simp at hi
        subst hi
        have : a ∈ t := List.get?_mem hj
        exact absurd this (by simp at hl; exact hl.1)
    | succ i =>
      cases j with
      | zero =>
        simp at hj
        subst hj
        have : a ∈ t := List.get?_mem hi
        exact absurd this (by simp at hl; exact hl.1)
      | succ j =>
        have : i = j := ih (by simp at hl; exact hl.2) i j z hi hj
        omega

theorem find_common_go_some (p1 p2 : List Nat) :
    ∀ n z, find_common_go p1 p2 n = some z →
      ∃ i, i < n ∧ p1.get? i = some z ∧ p2.get? i = some z ∧
        ∀ j, i < j → j < n → ¬ ∃ w, p1.get? j = some w ∧ p2.get? j = some w := by
  intro n
  induction n with
  | zero => intro z h; simp [find_common_go] at h
  | succ n ih =>
    intro z h
    simp only [find_common_go] at h
    cases h1 : p1.get? n with
    | none =>
      rw [h1] at h
      (try dsimp only at h)
      obtain ⟨i, hi, ha, hb, hmax⟩ := ih z h
      refine ⟨i, by omega, ha, hb, ?_⟩
      intro j hij hjn
      rcases Nat.lt_or_ge j n with hj | hj
      · exact hmax j hij hj
      · have : j = n := by omega
        subst this
        rintro ⟨w, hw1, hw2⟩
        rw [h1] at hw1
        exact absurd hw1 (by simp)
    | some a =>
      rw [h1] at h
      cases h2 : p2.get? n with
      | none =>
        rw [h2] at h
        (try dsimp only at h)
        obtain ⟨i, hi, ha, hb, hmax⟩ := ih z h
        refine ⟨i, by omega, ha, hb, ?_⟩
        intro j hij hjn
        rcases Nat.lt_or_ge j n with hj | hj
        · exact hmax j hij hj
        · have : j = n := by omega
          subst this
          rintro ⟨w, hw1, hw2⟩
          rw [h2] at hw2
          exact absurd hw2 (by simp)
      | some b =>
        rw [h2] at h
        (try dsimp only at h)
        by_cases hab : a = b
        · rw [if_pos hab] at h
          refine ⟨n, by omega, ?_, ?_, ?_⟩
          · rw [h1]
            injection h with h
            rw [h]
          · rw [h2, ← hab]
            injection h with h
            rw [h]
          · intro j hij hjn
            omega
        · rw [if_neg hab] at h
          obtain ⟨i, hi, ha, hb, hmax⟩ := ih z h
          refine ⟨i, by omega, ha, hb, ?_⟩
          intro j hij hjn
          rcases Nat.lt_or_ge j n with hj | hj
          · exact hmax j hij hj
          · have : j = n := by omega
            subst this
            rintro ⟨w, hw1, hw2⟩
            rw [h1] at hw1
            rw [h2] at hw2
            injection hw1 with hw1
            injection hw2 with hw2
            exact hab (hw1.trans hw2.symm)

theorem find_common_go_none_iff (p1 p2 : List Nat) :
    ∀ n, find_common_go p1 p2 n = none ↔
      ∀ j, j < n → ¬ ∃ w, p1.get? j = some w ∧ p2.get? j = some w := by
  intro n
  induction n with
  | zero => simp [find_common_go]
  | succ n ih =>
    simp only [find_common_go]
    cases h1 : p1.get? n with
    | none =>
      (try dsimp only)
      rw [ih]
      constructor
      · intro h j hj
        rcases Nat.lt_or_ge j n with hj' | hj'
        · exact h j hj'
        · have : j = n := by omega
          subst this
          rintro ⟨w, hw1, hw2⟩
          rw [h1] at hw1
          exact absurd hw1 (by simp)
      · intro h j hj
        exact h j (by omega)
    | some a =>
      cases h2 : p2.get? n with
      | none =>
        (try dsimp only)
        rw [ih]
        constructor
        · intro h j hj
          rcases Nat.lt_or_ge j n with hj' | hj'
          · exact h j hj'
          · have : j = n := by omega
            subst this
            rintro ⟨w, hw1, hw2⟩
            rw [h2] at hw2
            exact absurd hw2 (by simp)
        · intro h j hj
          exact h j (by omega)
      | some b =>
        (try dsimp only)
        by_cases hab : a = b
        · rw [if_pos hab]
          constructor
          · intro h; exact absurd h (by simp)
          · intro h
            exact absurd ⟨a, h1, hab ▸ h2⟩ (h n (by omega))
        · rw [if_neg hab, ih]
          constructor
          · intro h j hj
            rcases Nat.lt_or_ge j n with hj' | hj'
            · exact h j hj'
            · have : j = n := by omega
              subst this
              rintro ⟨w, hw1, hw2⟩
              rw [h1] at hw1
              rw [h2] at hw2
              injection hw1 with hw1
              injection hw2 with hw2
              exact hab (hw1.trans hw2.symm)
          · intro h j hj
            exact h j (by omega)

theorem get_path_det (pl : List (Nat × Option Nat)) (f1 f2 : Nat) (o : Option Nat)
    (p1 p2 : List Nat) (h1 : get_path pl f1 o = some p1)
    (h2 : get_path pl f2 o = some p2) : p1 = p2 := by
  rcases Nat.le_total f1 f2 with h | h
  · have := get_path_mono pl f1 o p1 h1 f2 h
    rw [this] at h2
    injection h2 with h2
  · have := get_path_mono pl f2 o p2 h2 f1 h
    rw [this] at h1
    injection h1 with h1
    exact h1.symm

theorem get_path_some_key (pl : List (Nat × Option Nat)) (f : Nat) (a : Nat)
    (p : List Nat) (h : get_path pl f (some a) = some p) : a ∈ placedKeys pl := by
  cases f with
  | zero => simp [get_path] at h
  | succ n =>
    simp only [get_path] at h
    cases hl : placeLookup pl a with
    | none => rw [hl] at h; simp at h
    | some q =>
      rw [← placeLookup_isSome_iff, hl]
      rfl

end Turbo

namespace Turbo

theorem getLast?_get? (p : List Nat) (z : Nat) (h : p.getLast? = some z) :
    0 < p.length ∧ p.get? (p.length - 1) = some z := by
  induction p with
  | nil => simp at h
  | cons a t ih =>
    cases t with
    | nil =>
      simp at h
      subst h
      exact ⟨by simp, rfl⟩
    | cons b u =>
      rw [List.getLast?_cons_cons] at h
      obtain ⟨hpos, hget⟩ := ih h
      refine ⟨by simp, ?_⟩
      have : (a :: b :: u).length - 1 = ((b :: u).length - 1) + 1 := by
        simp
      rw [this]
      simpa using hget

theorem isPre_get? (a b : List Nat) (h : isPre a b) (i : Nat) (hi : i < a.length) :
    b.get? i = a.get? i := by
  obtain ⟨t, rfl⟩ := h
  exact List.get?_append hi

theorem isPre_length (a b : List Nat) (h : isPre a b) : a.length ≤ b.length := by
  obtain ⟨t, rfl⟩ := h
  simp

/-- The facts `find_common` needs about a `get_path` result under the
placement-forest invariant: the path is duplicate-free and every element's
own path is a prefix ending in that element. -/
theorem path_bundle (pl : List (Nat × Option Nat)) (hP : PlacedOK pl)
    (o : Option Nat) (f : Nat) (p : List Nat) (h : get_path pl f o = some p) :
    p.Nodup ∧ ∀ z ∈ p, ∃ pz, get_path pl (posOf pl z + 1) (some z) = some pz ∧
      isPre pz p ∧ pz.getLast? = some z := by
  cases o with
  | none =>
    have : p = [] := by
      have := get_path_none pl f
      rw [this] at h
      injection h with h
      exact h.symm
    subst this
    exact ⟨by simp, by simp⟩
  | some a =>
    have ha : a ∈ placedKeys pl := get_path_some_key pl f a p h
    obtain ⟨pa, hpa, hlast, hnodup, helem, hpre, hplen⟩ := get_path_ok pl hP a ha
    have hp : p = pa := by
      exact get_path_det pl f _ _ p pa h hpa
    subst hp
    refine ⟨hnodup, ?_⟩
    intro z hz
    obtain ⟨pz, hpz, hpzpre⟩ := hpre z hz
    obtain ⟨hzmem, _⟩ := helem z hz
    obtain ⟨pz', hpz', hlast', _, _, _, _⟩ := get_path_ok pl hP z hzmem
    have : pz = pz' := by
      rw [hpz] at hpz'
      exact Option.some.inj hpz'
    subst this
    exact ⟨pz, hpz, hpzpre, hlast'⟩

/-- The property the claim asserts of each re-placement: the chosen
placement is the deepest node the two placement paths share, or the root
when they share none. Depth is position in the path (the root is position
0). -/
def EventSpec (p1 p2 : List Nat) (c : Option Nat) : Prop :=
  (c = none → ∀ w ∈ p1, w ∉ p2) ∧
  (∀ z, c = some z → z ∈ p1 ∧ z ∈ p2 ∧
    ∀ w iw iz, p1.get? iw = some w → w ∈ p2 → p1.get? iz = some z → iw ≤ iz)

theorem find_common_deepest (pl : List (Nat × Option Nat)) (hP : PlacedOK pl)
    (o1 o2 : Option Nat) (f1 f2 : Nat) (p1 p2 : List Nat)
    (h1 : get_path pl f1 o1 = some p1) (h2 : get_path pl f2 o2 = some p2) :
    EventSpec p1 p2 (find_common p1 p2) := by
  obtain ⟨hnd1, hb1⟩ := path_bundle pl hP o1 f1 p1 h1
  obtain ⟨hnd2, hb2⟩ := path_bundle pl hP o2 f2 p2 h2
  have hshared : ∀ w, w ∈ p1 → w ∈ p2 →
      ∃ k, p1.get? k = some w ∧ p2.get? k = some w ∧
        k < min p1.length p2.length := by
    intro w hw1 hw2
    obtain ⟨pz1, hz1, hpre1, hl1⟩ := hb1 w hw1
    obtain ⟨pz2, hz2, hpre2, _⟩ := hb2 w hw2
    have hzeq : pz1 = pz2 := by
      rw [hz1] at hz2
      injection hz2 with h
    subst hzeq
    obtain ⟨hpos, hget⟩ := getLast?_get? pz1 w hl1
    refine ⟨pz1.length - 1, ?_, ?_, ?_⟩
    · rw [isPre_get? pz1 p1 hpre1 _ (by omega)]
      exact hget
    · rw [isPre_get? pz1 p2 hpre2 _ (by omega)]
      exact hget
    · have l1 := isPre_length pz1 p1 hpre1
      have l2 := isPre_length pz1 p2 hpre2
      omega
  constructor
  · intro hc w hw1 hw2
    obtain ⟨k, hk1, hk2, hklt⟩ := hshared w hw1 hw2
    rw [find_common, find_common_go_none_iff] at hc
    exact hc k hklt ⟨w, hk1, hk2⟩
  · intro z hc
    obtain ⟨i, hilt, hi1, hi2, hmax⟩ := find_common_go_some p1 p2 _ z hc
    refine ⟨List.get?_mem hi1, List.get?_mem hi2, ?_⟩
    intro w iw iz hw1 hw2 hz1
    obtain ⟨k, hk1, hk2, hklt⟩ := hshared w (List.get?_mem hw1) hw2
    have hiwk : iw = k := nodup_get?_inj p1 hnd1 iw k w hw1 hk1
    have hizi : iz = i := nodup_get?_inj p1 hnd1 iz i z hz1 hi1
    rcases le_or_lt k i with hki | hki
    · omega
    · exact absurd ⟨w, hk1, hk2⟩ (hmax k hki hklt)

end Turbo

namespace Turbo

theorem placeLookup_append_notin (pl q : List (Nat × Option Nat)) (x : Nat)
    (hx : x ∉ placedKeys pl) : placeLookup (pl ++ q) x = placeLookup q x := by
  induction pl with
  | nil => rfl
  | cons e rest ih =>
    have he : ¬ e.1 = x := fun h => hx (by simp [placedKeys, h])
    have hx' : x ∉ placedKeys rest := fun h => hx (by simp [placedKeys] at h ⊢; right; exact h)
    rw [List.cons_append, placeLookup_cons_ne _ _ _ he]
    exact ih hx'

theorem posOf_append_self (pl : List (Nat × Option Nat)) (ty : Nat) (p : Option Nat)
    (hty : ty ∉ placedKeys pl) : posOf (pl ++ [(ty, p)]) ty = pl.length := by
  induction pl with
  | nil => simp [posOf]
  | cons e rest ih =>
    have he : ¬ e.1 = ty := fun h => hty (by simp [placedKeys, h])
    have hty' : ty ∉ placedKeys rest := fun h => hty (by simp [placedKeys] at h ⊢; right; exact h)
    have h2 := ih hty'
    show posOf (e :: (rest ++ [(ty, p)])) ty = rest.length + 1
    simp only [posOf, if_neg he]
    omega

theorem placedKeys_append_single (pl : List (Nat × Option Nat)) (ty : Nat)
    (p : Option Nat) : placedKeys (pl ++ [(ty, p)]) = placedKeys pl ++ [ty] := by
  simp [placedKeys]

theorem childrenOf_isSome_of_mem (stats : StatsTable) (ty : Nat)
    (h : ty ∈ statsKeys stats) : ∃ ch, childrenOf stats ty = some ch := by
  induction stats with
  | nil => simp [statsKeys] at h
  | cons e rest ih =>
    by_cases he : e.1 = ty
    · exact ⟨e.2, by simp [childrenOf, List.find?, he]⟩
    · have h' : ty ∈ statsKeys rest := by
        simp [statsKeys] at h ⊢
        rcases h with h | h
        · exact absurd h.symm he
        · exact h
      obtain ⟨ch, hch⟩ := ih h'
      exact ⟨ch, by simpa [childrenOf, List.find?, he] using hch⟩

theorem childrenOf_mem (stats : StatsTable) (ty : Nat) (ch : List Nat)
    (h : childrenOf stats ty = some ch) : (ty, ch) ∈ stats := by
  induction stats with
  | nil => simp [childrenOf] at h
  | cons e rest ih =>
    by_cases he : e.1 = ty
    · simp only [childrenOf, List.find?] at h
      rw [decide_eq_true he] at h
      simp at h
      have hety : (ty, ch) = e := by rw [← he, ← h]
      rw [hety]
      exact List.mem_cons_self _ _
    · simp only [childrenOf, List.find?] at h
      rw [decide_eq_false he] at h
      exact List.mem_cons_of_mem _ (ih h)

theorem childrenOf_unique (stats : StatsTable) (HK : (statsKeys stats).Nodup)
    (ty : Nat) (ch : List Nat) (hch : childrenOf stats ty = some ch) :
    ∀ e ∈ stats, e.1 = ty → e.2 = ch := by
  induction stats with
  | nil => simp [childrenOf] at hch
  | cons e0 rest ih =>
    have HK' : (statsKeys rest).Nodup := by
      simp [statsKeys] at HK ⊢
      exact HK.2
    have hnotin : e0.1 ∉ statsKeys rest := by
      simp [statsKeys] at HK ⊢
      exact HK.1
    intro e he hety
    by_cases he0 : e0.1 = ty
    · have hch0 : ch = e0.2 := by
        simp only [childrenOf, List.find?] at hch
        rw [decide_eq_true he0] at hch
        simp at hch
        exact hch.symm
      rcases List.mem_cons.mp he with he1 | he1
      · rw [he1, hch0]
      · exfalso
        have : e.1 ∈ statsKeys rest := List.mem_map_of_mem _ he1
        rw [hety, ← he0] at this
        exact hnotin this
    · simp only [childrenOf, List.find?] at hch
      rw [decide_eq_false he0] at hch
      rcases List.mem_cons.mp he with he1 | he1
      · exact absurd (he1 ▸ hety) he0
      · exact ih HK' hch e he1 hety

/-- Existence of the paths `treeifyLoop` computes: any placement target that
is `none` or a placed bucket has a path at fuel `pl.length`. -/
theorem get_path_total (pl : List (Nat × Option Nat)) (hP : PlacedOK pl)
    (o : Option Nat) (ho : ∀ a, o = some a → a ∈ placedKeys pl) :
    ∃ p, get_path pl pl.length o = some p := by
  cases o with
  | none => exact ⟨[], get_path_none pl _⟩
  | some a =>
    have ha : a ∈ placedKeys pl := ho a rfl
    obtain ⟨p, hp, _, _, _, _, _⟩ := get_path_ok pl hP a ha
    have hlt : posOf pl a < pl.length := posOf_lt_length pl a ha
    exact ⟨p, get_path_mono pl _ _ _ hp _ (by omega)⟩

/-- Work queue well-formedness: every queued bucket exists in the stats
table and every proposed placement is the root or an already-placed
bucket. -/
def QueueOK (stats : StatsTable) (pl : List (Nat × Option Nat))
    (q : List (Nat × Option Nat)) : Prop :=
  ∀ e ∈ q, e.1 ∈ statsKeys stats ∧
    (e.2 = none ∨ ∃ p, e.2 = some p ∧ p ∈ placedKeys pl)

/-- Breadth-first coverage: every root is placed or pending, and every
`Child` edge out of a placed bucket leads to a placed or pending bucket. -/
def Coverage (stats : StatsTable) (pl : List (Nat × Option Nat))
    (q : List (Nat × Option Nat)) : Prop :=
  (∀ r ∈ statsRoots stats, r ∈ placedKeys pl ∨ (r, (none : Option Nat)) ∈ q) ∧
  (∀ e ∈ stats, e.1 ∈ placedKeys pl → ∀ c ∈ e.2,
    c ∈ placedKeys pl ∨ (c, some e.1) ∈ q)

/-- The full loop invariant of `treeify`. -/
def LoopInv (stats : StatsTable) (s : TreeifyState) : Prop :=
  PlacedOK s.placement ∧
  (∀ x ∈ placedKeys s.placement, x ∈ statsKeys stats) ∧
  QueueOK stats s.placement s.queue ∧
  Coverage stats s.placement s.queue ∧
  (∀ ev ∈ s.events, EventSpec ev.path1 ev.path2 ev.chosen)

/-- Remaining work: one pop for each unplaced bucket plus one per `Child`
reference out of it. -/
def budget (stats : StatsTable) (pl : List (Nat × Option Nat)) : Nat :=
  ((stats.filter (fun e => decide (e.1 ∉ placedKeys pl))).map
    (fun e => 1 + e.2.length)).sum

theorem budget_update (stats : StatsTable) (pl : List (Nat × Option Nat))
    (ty : Nat) (p : Option Nat) :
    budget stats (placeUpdate pl ty p) = budget stats pl := by
  simp only [budget, placeUpdate_keys]

theorem budget_congr (stats : StatsTable) (pl pl' : List (Nat × Option Nat))
    (h : ∀ e ∈ stats, (e.1 ∈ placedKeys pl ↔ e.1 ∈ placedKeys pl')) :
    budget stats pl = budget stats pl' := by
  induction stats with
  | nil => rfl
  | cons e rest ih =>
    have he := h e (by simp)
    have ih' := ih (fun e' he' => h e' (List.mem_cons_of_mem _ he'))
    by_cases hm : e.1 ∈ placedKeys pl
    · have hm' : e.1 ∈ placedKeys pl' := he.mp hm
      simp only [budget, List.filter_cons, decide_eq_false (not_not_intro hm),
        decide_eq_false (not_not_intro hm'), Bool.false_eq_true, if_false] at ih' ⊢
      exact ih'
    · have hm' : e.1 ∉ placedKeys pl' := fun hx => hm (he.mpr hx)
      simp only [budget, List.filter_cons, decide_eq_true hm,
        decide_eq_true hm', eq_self_iff_true, if_true, List.map_cons,
        List.sum_cons] at ih' ⊢
      omega

theorem budget_place (stats : StatsTable) (HK : (statsKeys stats).Nodup)
    (pl : List (Nat × Option Nat)) (ty : Nat) (childs : List Nat)
    (hch : childrenOf stats ty = some childs) (hnp : ty ∉ placedKeys pl)
    (p : Option Nat) :
    budget stats pl = budget stats (pl ++ [(ty, p)]) + (1 + childs.length) := by
  induction stats with
  | nil => simp [childrenOf] at hch
  | cons e rest ih =>
    have HK' : (statsKeys rest).Nodup := by
      simp [statsKeys] at HK ⊢
      exact HK.2
    have hkeys : placedKeys (pl ++ [(ty, p)]) = placedKeys pl ++ [ty] :=
      placedKeys_append_single pl ty p
    by_cases he : e.1 = ty
    · have hch0 : childs = e.2 := by
        simp only [childrenOf, List.find?] at hch
        rw [decide_eq_true he] at hch
        simp at hch
        exact hch.symm
      have hnotin : ty ∉ statsKeys rest := by
        have h0 := (List.nodup_cons.mp HK).1
        exact he ▸ h0
      have hcongr : budget rest pl = budget rest (pl ++ [(ty, p)]) := by
        apply budget_congr
        intro e' he'
        rw [hkeys]
        constructor
        · intro hx; exact List.mem_append.mpr (Or.inl hx)
        · intro hx
          rcases List.mem_append.mp hx with hx | hx
          · exact hx
          · exfalso
            simp at hx
            exact hnotin (hx ▸ List.mem_map_of_mem _ he')
      have hkept : e.1 ∉ placedKeys pl := he ▸ hnp
      have hdropped : e.1 ∈ placedKeys (pl ++ [(ty, p)]) := by
        rw [hkeys, he]
        simp
      simp only [budget, List.filter_cons, decide_eq_true hkept,
        decide_eq_false (not_not_intro hdropped), eq_self_iff_true, if_true,
        Bool.false_eq_true, if_false, List.map_cons, List.sum_cons]
      rw [show ((rest.filter (fun e => decide (e.1 ∉ placedKeys pl))).map
          (fun e => 1 + e.2.length)).sum = budget rest pl from rfl]
      rw [show ((rest.filter (fun e => decide (e.1 ∉ placedKeys (pl ++ [(ty, p)])))).map
          (fun e => 1 + e.2.length)).sum = budget rest (pl ++ [(ty, p)]) from rfl]
      rw [hcongr, hch0]
      omega
    · have hch' : childrenOf rest ty = some childs := by
        simp only [childrenOf, List.find?] at hch
        rw [decide_eq_false he] at hch
        exact hch
      have ih' := ih HK' hch'
      by_cases hm : e.1 ∈ placedKeys pl
      · have hm' : e.1 ∈ placedKeys (pl ++ [(ty, p)]) := by
          rw [hkeys]; exact List.mem_append.mpr (Or.inl hm)
        simp only [budget, List.filter_cons, decide_eq_false (not_not_intro hm),
          decide_eq_false (not_not_intro hm'), Bool.false_eq_true, if_false] at ih' ⊢
        exact ih'
      · have hm' : e.1 ∉ placedKeys (pl ++ [(ty, p)]) := by
          rw [hkeys]
          intro hx
          rcases List.mem_append.mp hx with hx | hx
          · exact hm hx
          · simp at hx
            exact he hx
        simp only [budget, List.filter_cons, decide_eq_true hm,
          decide_eq_true hm', eq_self_iff_true, if_true, List.map_cons,
          List.sum_cons] at ih' ⊢
        omega

end Turbo

namespace Turbo

set_option maxHeartbeats 1600000 in
theorem treeifyLoop_ok (stats : StatsTable)
    (HK : (statsKeys stats).Nodup)
    (HC : ∀ e ∈ stats, ∀ c ∈ e.2, c ∈ statsKeys stats) :
    ∀ fuel s, LoopInv stats s →
      s.queue.length + budget stats s.placement < fuel →
      ∃ s', treeifyLoop stats fuel s = some s' ∧ s'.queue = [] ∧
        LoopInv stats s' ∧
        (∀ x, x ∈ placedKeys s.placement → x ∈ placedKeys s'.placement) := by
  intro fuel
  induction fuel with
  | zero => intro s _ hm; omega
  | succ fuel ih =>
    intro s hinv hm
    obtain ⟨hP, hKeys, hQ, hCov, hEv⟩ := hinv
    cases hq : s.queue with
    | nil =>
      refine ⟨s, ?_, hq, ⟨hP, hKeys, hQ, hCov, hEv⟩, fun x hx => hx⟩
      simp only [treeifyLoop, hq]
    | cons head rest =>
      obtain ⟨ty, pl0⟩ := head
      have hhead := hQ (ty, pl0) (by rw [hq]; exact List.mem_cons_self _ _)
      have hlen : s.queue.length = rest.length + 1 := by rw [hq]; simp
      cases hlook : placeLookup s.placement ty with
      | some current =>
        have htymem : ty ∈ placedKeys s.placement := by
          rw [← placeLookup_isSome_iff, hlook]; rfl
        by_cases heq : pl0 = current
        · have hinv' : LoopInv stats ⟨s.placement, rest, s.events⟩ := by
            refine ⟨hP, hKeys, ?_, ⟨?_, ?_⟩, hEv⟩
            · intro e he
              exact hQ e (by rw [hq]; exact List.mem_cons_of_mem _ he)
            · intro r hr
              rcases hCov.1 r hr with h | h
              · exact Or.inl h
              · rw [hq] at h
                rcases List.mem_cons.mp h with h | h
                · refine Or.inl ?_
                  injection h with h1 h2
                  exact h1 ▸ htymem
                · exact Or.inr h
            · intro e he hplaced c hc
              rcases hCov.2 e he hplaced c hc with h | h
              · exact Or.inl h
              · rw [hq] at h
                rcases List.mem_cons.mp h with h | h
                · refine Or.inl ?_
                  injection h with h1 h2
                  exact h1 ▸ htymem
                · exact Or.inr h
          obtain ⟨s', hrun, hq', hinv'', hsub⟩ :=
            ih ⟨s.placement, rest, s.events⟩ hinv' (by simp only; omega)
          refine ⟨s', ?_, hq', hinv'', hsub⟩
          simp only [treeifyLoop, hq, hlook, if_pos heq]
          exact hrun
        · have hp1ex : ∃ p1, get_path s.placement s.placement.length pl0 = some p1 := by
            apply get_path_total s.placement hP
            intro a ha
            rcases hhead.2 with h | ⟨pp, hpp, hmem⟩
            · rw [ha] at h; exact absurd h (by simp)
            · rw [ha] at hpp
              injection hpp with hpp
              exact hpp ▸ hmem
          have hp2ex : ∃ p2, get_path s.placement s.placement.length current = some p2 := by
            apply get_path_total s.placement hP
            intro a ha
            exact (hP.2 ty a (ha ▸ hlook)).1
          obtain ⟨p1, hp1⟩ := hp1ex
          obtain ⟨p2, hp2⟩ := hp2ex
          have hp2elem : ∀ z ∈ p2, z ∈ placedKeys s.placement ∧
              posOf s.placement z < posOf s.placement ty := by
            intro z hz
            cases hcur : current with
            | none =>
              rw [hcur, get_path_none] at hp2
              injection hp2 with hp2
              rw [← hp2] at hz
              simp at hz
            | some c =>
              rw [hcur] at hp2 hlook
              obtain ⟨hcmem, hclt⟩ := hP.2 ty c hlook
              obtain ⟨pc, hpc, _, _, helem, _, _⟩ := get_path_ok s.placement hP c hcmem
              have hdet : p2 = pc := get_path_det s.placement _ _ _ p2 pc hp2 hpc
              rw [hdet] at hz
              obtain ⟨hz1, hz2⟩ := helem z hz
              exact ⟨hz1, by omega⟩
          have hspec : EventSpec p1 p2 (find_common p1 p2) :=
            find_common_deepest s.placement hP pl0 current _ _ p1 p2 hp1 hp2
          have hP' : PlacedOK (placeUpdate s.placement ty (find_common p1 p2)) := by
            constructor
            · rw [placeUpdate_keys]; exact hP.1
            · intro x px hx
              rw [placeUpdate_keys, posOf_update, posOf_update]
              by_cases hxty : x = ty
              · subst hxty
                rw [placeLookup_update_self _ _ _ htymem] at hx
                injection hx with hx
                obtain ⟨_, hpx2, _⟩ := hspec.2 px hx
                exact hp2elem px hpx2
              · rw [placeLookup_update_other _ _ _ _ hxty] at hx
                exact hP.2 x px hx
          have hinv' : LoopInv stats
              ⟨placeUpdate s.placement ty (find_common p1 p2), rest,
                s.events ++ [⟨p1, p2, find_common p1 p2⟩]⟩ := by
            refine ⟨hP', ?_, ?_, ⟨?_, ?_⟩, ?_⟩
            · intro x hx
              rw [placeUpdate_keys] at hx
              exact hKeys x hx
            · intro e he
              obtain ⟨h1, h2⟩ := hQ e (by rw [hq]; exact List.mem_cons_of_mem _ he)
              refine ⟨h1, ?_⟩
              simp only [placeUpdate_keys]
              exact h2
            · intro r hr
              simp only [placeUpdate_keys]
              rcases hCov.1 r hr with h | h
              · exact Or.inl h
              · rw [hq] at h
                rcases List.mem_cons.mp h with h | h
                · refine Or.inl ?_
                  injection h with h1 h2
                  exact h1 ▸ htymem
                · exact Or.inr h
            · intro e he hplaced c hc
              simp only [placeUpdate_keys] at hplaced ⊢
              rcases hCov.2 e he hplaced c hc with h | h
              · exact Or.inl h
              · rw [hq] at h
                rcases List.mem_cons.mp h with h | h
                · refine Or.inl ?_
                  injection h with h1 h2
                  exact h1 ▸ htymem
                · exact Or.inr h
            · intro ev hev
              rcases List.mem_append.mp hev with h | h
              · exact hEv ev h
              · simp at h
                rw [h]
                exact hspec
          obtain ⟨s', hrun, hq', hinv'', hsub⟩ :=
            ih ⟨placeUpdate s.placement ty (find_common p1 p2), rest,
              s.events ++ [⟨p1, p2, find_common p1 p2⟩]⟩ hinv'
              (by simp only; rw [budget_update]; omega)
          refine ⟨s', ?_, hq', hinv'', ?_⟩
          · simp only [treeifyLoop, hq, hlook, if_neg heq, hp1, hp2]
            exact hrun
          · intro x hx
            apply hsub
            simp only [placeUpdate_keys]
            exact hx
      | none =>
        have htynot : ty ∉ placedKeys s.placement :=
          (placeLookup_eq_none_iff _ _).mp hlook
        have htyKey : ty ∈ statsKeys stats := hhead.1
        obtain ⟨ch, hch⟩ := childrenOf_isSome_of_mem stats ty htyKey
        have hentry : (ty, ch) ∈ stats := childrenOf_mem stats ty ch hch
        have hkeys' : placedKeys (s.placement ++ [(ty, pl0)])
            = placedKeys s.placement ++ [ty] := placedKeys_append_single _ _ _
        have hmemnew : ∀ x, x ∈ placedKeys (s.placement ++ [(ty, pl0)]) ↔
            (x ∈ placedKeys s.placement ∨ x = ty) := by
          intro x
          rw [hkeys']
          simp
        have hP' : PlacedOK (s.placement ++ [(ty, pl0)]) := by
          constructor
          · rw [hkeys']
            simp [List.nodup_append, hP.1, htynot]
          · intro x px hx
            by_cases hxmem : x ∈ placedKeys s.placement
            · rw [placeLookup_append_old _ _ _ hxmem] at hx
              obtain ⟨h1, h2⟩ := hP.2 x px hx
              rw [posOf_append_of_mem _ _ _ hxmem, posOf_append_of_mem _ _ _ h1]
              exact ⟨(hmemnew px).mpr (Or.inl h1), h2⟩
            · rw [placeLookup_append_notin _ _ _ hxmem] at hx
              by_cases hxty : ty = x
              · subst hxty
                rw [placeLookup_cons_self _ _ _ rfl] at hx
                injection hx with hx
                rcases hhead.2 with h | ⟨pp, hpp, hmem⟩
                · rw [h] at hx; exact absurd hx (by simp)
                · rw [hpp] at hx
                  injection hx with hx
                  rw [posOf_append_self _ _ _ htynot, ← hx,
                    posOf_append_of_mem _ _ _ hmem]
                  exact ⟨(hmemnew pp).mpr (Or.inl hmem),
                    posOf_lt_length _ _ hmem⟩
              · rw [placeLookup_cons_ne _ _ _ hxty] at hx
                simp [placeLookup] at hx
        have hinv' : LoopInv stats
            ⟨s.placement ++ [(ty, pl0)],
              rest ++ ch.map (fun c => (c, some ty)), s.events⟩ := by
          refine ⟨hP', ?_, ?_, ⟨?_, ?_⟩, hEv⟩
          · intro x hx
            rcases (hmemnew x).mp hx with h | h
            · exact hKeys x h
            · exact h ▸ htyKey
          · intro e he
            rcases List.mem_append.mp he with h | h
            · obtain ⟨h1, h2⟩ := hQ e (by rw [hq]; exact List.mem_cons_of_mem _ h)
              refine ⟨h1, ?_⟩
              rcases h2 with h2 | ⟨p, hp, hpm⟩
              · exact Or.inl h2
              · exact Or.inr ⟨p, hp, (hmemnew p).mpr (Or.inl hpm)⟩
            · obtain ⟨c, hc, hce⟩ := List.mem_map.mp h
              refine ⟨?_, Or.inr ⟨ty, ?_, (hmemnew ty).mpr (Or.inr rfl)⟩⟩
              · rw [← hce]
                exact HC (ty, ch) hentry c hc
              · rw [← hce]
          · intro r hr
            rcases hCov.1 r hr with h | h
            · exact Or.inl ((hmemnew r).mpr (Or.inl h))
            · rw [hq] at h
              rcases List.mem_cons.mp h with h | h
              · refine Or.inl ?_
                injection h with h1 h2
                exact (hmemnew r).mpr (Or.inr h1)
              · exact Or.inr (List.mem_append.mpr (Or.inl h))
          · intro e he hplaced c hc
            rcases (hmemnew e.1).mp hplaced with h | h
            · rcases hCov.2 e he h c hc with h2 | h2
              · exact Or.inl ((hmemnew c).mpr (Or.inl h2))
              · rw [hq] at h2
                rcases List.mem_cons.mp h2 with h2 | h2
                · refine Or.inl ?_
                  injection h2 with h21 h22
                  exact (hmemnew c).mpr (Or.inr h21)
                · exact Or.inr (List.mem_append.mpr (Or.inl h2))
            · have hech : e.2 = ch := childrenOf_unique stats HK ty ch hch e he h
              refine Or.inr (List.mem_append.mpr (Or.inr ?_))
              rw [h]
              exact List.mem_map.mpr ⟨c, hech ▸ hc, rfl⟩
        have hbud := budget_place stats HK s.placement ty ch hch htynot pl0
        obtain ⟨s', hrun, hq', hinv'', hsub⟩ :=
          ih ⟨s.placement ++ [(ty, pl0)],
            rest ++ ch.map (fun c => (c, some ty)), s.events⟩ hinv'
            (by
              simp only [List.length_append, List.length_map]
              omega)
        refine ⟨s', ?_, hq', hinv'', ?_⟩
        · simp only [treeifyLoop, hq, hlook, hch]
          exact hrun
        · intro x hx
          apply hsub
          exact (hmemnew x).mpr (Or.inl hx)

end Turbo

namespace Turbo

theorem statsKeys_length (stats : StatsTable) : (statsKeys stats).length = stats.length := by
  simp [statsKeys]

theorem statsRoots_length_le (stats : StatsTable) :
    (statsRoots stats).length ≤ stats.length := by
  calc (statsRoots stats).length ≤ (statsKeys stats).length :=
        List.length_filter_le _ _
    _ = stats.length := statsKeys_length stats

theorem budget_nil_placement (stats : StatsTable) :
    budget stats [] = stats.length + (stats.map (fun e => e.2.length)).sum := by
  induction stats with
  | nil => rfl
  | cons e rest ih =>
    have : (e.1 ∉ placedKeys ([] : List (Nat × Option Nat))) := by simp [placedKeys]
    simp only [budget, List.filter_cons, decide_eq_true this, eq_self_iff_true,
      if_true, List.map_cons, List.sum_cons, List.length_cons] at ih ⊢
    omega

theorem mem_roots_iff (stats : StatsTable) (b : Nat) :
    b ∈ statsRoots stats ↔ (b ∈ statsKeys stats ∧ ∀ e ∈ stats, b ∉ e.2) := by
  simp [statsRoots, List.mem_filter, List.all_eq_true, List.contains]

theorem all_placed (stats : StatsTable)
    (HA : ∃ rank : Nat → Nat, ∀ e ∈ stats, ∀ c ∈ e.2, rank e.1 < rank c)
    (pl : List (Nat × Option Nat))
    (hroots : ∀ r ∈ statsRoots stats, r ∈ placedKeys pl)
    (hedges : ∀ e ∈ stats, e.1 ∈ placedKeys pl → ∀ c ∈ e.2, c ∈ placedKeys pl) :
    ∀ b ∈ statsKeys stats, b ∈ placedKeys pl := by
  obtain ⟨rank, hrank⟩ := HA
  suffices h : ∀ n b, b ∈ statsKeys stats → rank b < n → b ∈ placedKeys pl by
    intro b hb
    exact h (rank b + 1) b hb (by omega)
  intro n
  induction n with
  | zero => intro b _ h; omega
  | succ n ih =>
    intro b hb hlt
    by_cases hr : b ∈ statsRoots stats
    · exact hroots b hr
    · have hedge : ∃ e ∈ stats, b ∈ e.2 := by
        by_contra hno
        push_neg at hno
        exact hr ((mem_roots_iff stats b).mpr ⟨hb, hno⟩)
      obtain ⟨e, he, hbe⟩ := hedge
      have h1 : rank e.1 < rank b := hrank e he b hbe
      have h2 : e.1 ∈ statsKeys stats := List.mem_map_of_mem _ he
      have h3 : e.1 ∈ placedKeys pl := ih e.1 h2 (by omega)
      exact hedges e he h3 b hbe

theorem exists_root_entry_aux (pl : List (Nat × Option Nat)) (hP : PlacedOK pl) :
    ∀ n b, b ∈ placedKeys pl → posOf pl b < n →
      ∃ x, x ∈ placedKeys pl ∧ placeLookup pl x = some none := by
  intro n
  induction n with
  | zero => intro b _ h; omega
  | succ n ih =>
    intro b hb hlt
    obtain ⟨v, _, hlook⟩ := get_at_posOf pl b hb
    cases v with
    | none => exact ⟨b, hb, hlook⟩
    | some q =>
      obtain ⟨hq1, hq2⟩ := hP.2 b q hlook
      exact ih q hq1 (by omega)

theorem exists_root_entry (pl : List (Nat × Option Nat)) (hP : PlacedOK pl)
    (b : Nat) (hb : b ∈ placedKeys pl) :
    ∃ x, x ∈ placedKeys pl ∧ placeLookup pl x = some none :=
  exists_root_entry_aux pl hP (posOf pl b + 1) b hb (by omega)

theorem placeLookup_mem_entry (pl : List (Nat × Option Nat)) (c : Nat) (p : Option Nat)
    (h : placeLookup pl c = some p) : (c, p) ∈ pl := by
  induction pl with
  | nil => simp [placeLookup] at h
  | cons e rest ih =>
    by_cases he : e.1 = c
    · rw [placeLookup_cons_self _ _ _ he] at h
      injection h with h
      have : (c, p) = e := by rw [← he, ← h]
      rw [this]
      exact List.mem_cons_self _ _
    · rw [placeLookup_cons_ne _ _ _ he] at h
      exact List.mem_cons_of_mem _ (ih h)

theorem entry_placeLookup (pl : List (Nat × Option Nat))
    (hnd : (placedKeys pl).Nodup) (c : Nat) (p : Option Nat)
    (h : (c, p) ∈ pl) : placeLookup pl c = some p := by
  induction pl with
  | nil => simp at h
  | cons e rest ih =>
    have hnd' : (placedKeys rest).Nodup := (List.nodup_cons.mp hnd).2
    have hnotin : e.1 ∉ placedKeys rest := (List.nodup_cons.mp hnd).1
    rcases List.mem_cons.mp h with h | h
    · rw [← h]
      exact placeLookup_cons_self _ _ _ rfl
    · by_cases he : e.1 = c
      · exfalso
        have : c ∈ placedKeys rest := by
          rw [show c = (c, p).1 from rfl]
          exact List.mem_map_of_mem _ h
        exact hnotin (he ▸ this)
      · rw [placeLookup_cons_ne _ _ _ he]
        exact ih hnd' h

/-- The initial state of the `treeify` loop satisfies the invariant. -/
theorem initial_inv (stats : StatsTable) :
    LoopInv stats ⟨[], (statsRoots stats).map (fun r => (r, none)), []⟩ := by
  refine ⟨⟨by simp [placedKeys], ?_⟩, ?_, ?_, ⟨?_, ?_⟩, ?_⟩
  · intro x p hx
    simp [placeLookup] at hx
  · intro x hx
    simp [placedKeys] at hx
  · intro e he
    simp only at he
    obtain ⟨r, hr, hre⟩ := List.mem_map.mp he
    constructor
    · rw [← hre]
      exact ((mem_roots_iff stats r).mp hr).1
    · rw [← hre]
      exact Or.inl rfl
  · intro r hr
    refine Or.inr ?_
    exact List.mem_map.mpr ⟨r, hr, rfl⟩
  · intro e he hplaced
    simp [placedKeys] at hplaced
  · intro ev hev
    simp at hev

end Turbo

namespace Turbo

theorem groupLookup_cons_self (e : Option Nat × List Nat)
    (rest : List (Option Nat × List Nat)) (p : Option Nat) (h : e.1 = p) :
    groupLookup (e :: rest) p = some e.2 := by
  simp [groupLookup, List.find?, h]

theorem groupLookup_cons_ne (e : Option Nat × List Nat)
    (rest : List (Option Nat × List Nat)) (p : Option Nat) (h : ¬ e.1 = p) :
    groupLookup (e :: rest) p = groupLookup rest p := by
  simp [groupLookup, List.find?, h]

/-- The list of one group, empty when the group is absent. -/
def groupListD (m : List (Option Nat × List Nat)) (p : Option Nat) : List Nat :=
  (groupLookup m p).getD []

theorem count_cons_ite {A : Type} [BEq A] [LawfulBEq A] [DecidableEq A] (a b : A) (l : List A) :
    (b :: l).count a = l.count a + (if b = a then 1 else 0) := by
  rw [List.count_cons]
  by_cases h : b = a
  · simp [h]
  · simp [h]

theorem groupAdd_count (p' : Option Nat) (c' : Nat) :
    ∀ m p c, (groupListD (groupAdd m p' c') p).count c
      = (groupListD m p).count c + (if p' = p ∧ c' = c then 1 else 0) := by
  intro m
  induction m with
  | nil =>
    intro p c
    show (groupListD [(p', [c'])] p).count c
      = List.count c [] + (if p' = p ∧ c' = c then 1 else 0)
    by_cases hp : p' = p
    · rw [groupListD, groupLookup_cons_self (p', [c']) [] p hp]
      show List.count c [c'] = _
      rw [count_cons_ite]
      by_cases hc : c' = c
      · simp [hp, hc]
      · simp [hp, hc]
    · rw [groupListD, groupLookup_cons_ne (p', [c']) [] p hp]
      show List.count c [] = _
      simp [hp]
  | cons e rest ih =>
    intro p c
    show (groupListD (if e.1 = p' then (e.1, e.2 ++ [c']) :: rest
        else e :: groupAdd rest p' c') p).count c = _
    by_cases he : e.1 = p'
    · rw [if_pos he]
      by_cases hep : e.1 = p
      · have hp : p' = p := he ▸ hep
        simp only [groupListD, groupLookup_cons_self (e.1, e.2 ++ [c']) rest p hep,
          groupLookup_cons_self e rest p hep, Option.getD_some, List.count_append]
        rw [count_cons_ite]
        by_cases hc : c' = c
        · simp [hp, hc, List.count_nil]
        · simp [hp, hc, List.count_nil]
      · have hp : ¬ p' = p := fun h => hep (he.symm ▸ h)
        simp only [groupListD, groupLookup_cons_ne (e.1, e.2 ++ [c']) rest p hep,
          groupLookup_cons_ne e rest p hep]
        simp [hp]
    · rw [if_neg he]
      by_cases hep : e.1 = p
      · have hp : ¬ p' = p := fun h => he (h ▸ hep)
        simp only [groupListD, groupLookup_cons_self e (groupAdd rest p' c') p hep,
          groupLookup_cons_self e rest p hep, Option.getD_some]
        simp [hp]
      · simp only [groupListD, groupLookup_cons_ne e (groupAdd rest p' c') p hep,
          groupLookup_cons_ne e rest p hep]
        exact ih p c

theorem childrenMap_foldl_count (pl : List (Nat × Option Nat)) :
    ∀ m p c, (groupListD (pl.foldl (fun m e => groupAdd m e.2 e.1) m) p).count c
      = (groupListD m p).count c + pl.count (c, p) := by
  induction pl with
  | nil => intro m p c; simp
  | cons e rest ih =>
    intro m p c
    show (groupListD (rest.foldl (fun m e => groupAdd m e.2 e.1)
        (groupAdd m e.2 e.1)) p).count c = _
    rw [ih (groupAdd m e.2 e.1) p c, groupAdd_count e.2 e.1 m p c, count_cons_ite]
    by_cases h : e = (c, p)
    · have h2 : e.2 = p ∧ e.1 = c := ⟨by rw [h], by rw [h]⟩
      rw [if_pos h, if_pos h2]
      omega
    · have h2 : ¬ (e.2 = p ∧ e.1 = c) := by
        rintro ⟨h1', h2'⟩
        exact h (Prod.ext_iff.mpr ⟨h2', h1'⟩)
      rw [if_neg h, if_neg h2]
      omega

theorem childrenMap_count (pl : List (Nat × Option Nat)) (p : Option Nat) (c : Nat) :
    (groupListD (childrenMap pl) p).count c = pl.count (c, p) := by
  have h := childrenMap_foldl_count pl [] p c
  simpa [groupListD, groupLookup] using h

theorem mem_group_iff (pl : List (Nat × Option Nat)) (p : Option Nat) (c : Nat) :
    c ∈ groupListD (childrenMap pl) p ↔ (c, p) ∈ pl := by
  rw [← List.count_pos_iff_mem, ← List.count_pos_iff_mem, childrenMap_count]

theorem count_entry_le_keys (pl : List (Nat × Option Nat)) (c : Nat) (p : Option Nat) :
    pl.count (c, p) ≤ (placedKeys pl).count c := by
  induction pl with
  | nil => simp [placedKeys]
  | cons e rest ih =>
    have hL : ((e :: rest).count (c, p))
        = rest.count (c, p) + (if e = (c, p) then 1 else 0) := count_cons_ite _ _ _
    have hR : ((placedKeys (e :: rest)).count c)
        = (placedKeys rest).count c + (if e.1 = c then 1 else 0) := by
      show ((e.1 :: placedKeys rest).count c) = _
      exact count_cons_ite _ _ _
    rw [hL, hR]
    by_cases h : e = (c, p)
    · have hc : e.1 = c := by rw [h]
      simp only [if_pos h, if_pos hc]
      omega
    · simp only [if_neg h]
      by_cases hc : e.1 = c
      · simp only [if_pos hc]; omega
      · simp only [if_neg hc]; omega

end Turbo

namespace Turbo

/-- The canonical placement path of a placed bucket. -/
def pathOf (pl : List (Nat × Option Nat)) (b : Nat) : List Nat :=
  (get_path pl (posOf pl b + 1) (some b)).getD []

/-- The canonical placement path of a parent value: empty for the root. -/
def pathTo (pl : List (Nat × Option Nat)) : Option Nat → List Nat
  | none => []
  | some x => pathOf pl x

/-- Membership in the subtree below a parent value: everything below the
root, the strict descendants of `x` below `some x`. -/
def DescM (pl : List (Nat × Option Nat)) : Option Nat → Nat → Prop
  | none, _ => True
  | some x, b => x ∈ pathOf pl b ∧ x ≠ b

instance (pl : List (Nat × Option Nat)) (p : Option Nat) (b : Nat) :
    Decidable (DescM pl p b) :=
  match p with
  | none => isTrue trivial
  | some x => inferInstanceAs (Decidable (x ∈ pathOf pl b ∧ x ≠ b))

theorem pathOf_eq (pl : List (Nat × Option Nat)) (hP : PlacedOK pl)
    (b : Nat) (hb : b ∈ placedKeys pl) :
    get_path pl (posOf pl b + 1) (some b) = some (pathOf pl b) := by
  obtain ⟨p, hp, _, _, _, _, _⟩ := get_path_ok pl hP b hb
  simp only [pathOf, hp, Option.getD_some]

theorem pathOf_facts (pl : List (Nat × Option Nat)) (hP : PlacedOK pl)
    (b : Nat) (hb : b ∈ placedKeys pl) :
    (pathOf pl b).getLast? = some b ∧
    (pathOf pl b).Nodup ∧
    (∀ z ∈ pathOf pl b, z ∈ placedKeys pl ∧ posOf pl z ≤ posOf pl b) ∧
    (∀ z ∈ pathOf pl b, isPre (pathOf pl z) (pathOf pl b)) ∧
    (pathOf pl b).length ≤ posOf pl b + 1 := by
  obtain ⟨p, hp, hlast, hnd, helem, hpre, hlen⟩ := get_path_ok pl hP b hb
  have hpb : pathOf pl b = p := by simp only [pathOf, hp, Option.getD_some]
  rw [hpb]
  refine ⟨hlast, hnd, helem, ?_, hlen⟩
  intro z hz
  obtain ⟨pz, hpz, hpzpre⟩ := hpre z hz
  have hzk : z ∈ placedKeys pl := (helem z hz).1
  have hzeq : pathOf pl z = pz := by simp only [pathOf, hpz, Option.getD_some]
  rw [hzeq]
  exact hpzpre

theorem pathOf_self_mem (pl : List (Nat × Option Nat)) (hP : PlacedOK pl)
    (b : Nat) (hb : b ∈ placedKeys pl) : b ∈ pathOf pl b := by
  obtain ⟨hlast, _, _, _, _⟩ := pathOf_facts pl hP b hb
  obtain ⟨hpos, hget⟩ := getLast?_get? _ b hlast
  exact List.get?_mem hget

theorem placeLookup_some_of_mem (pl : List (Nat × Option Nat)) (z : Nat)
    (hz : z ∈ placedKeys pl) : ∃ v, placeLookup pl z = some v := by
  have hs := (placeLookup_isSome_iff pl z).mpr hz
  cases h : placeLookup pl z with
  | none => rw [h] at hs; simp at hs
  | some v => exact ⟨v, rfl⟩

theorem pathOf_parent (pl : List (Nat × Option Nat)) (hP : PlacedOK pl)
    (b : Nat) (hb : b ∈ placedKeys pl) (v : Option Nat)
    (hv : placeLookup pl b = some v) :
    pathOf pl b = pathTo pl v ++ [b] := by
  have hcan := pathOf_eq pl hP b hb
  cases v with
  | none =>
    have h2 : get_path pl (posOf pl b + 1) (some b) = some [b] := by
      simp only [get_path, hv, get_path_none, List.nil_append]
    rw [h2] at hcan
    injection hcan with h
    show pathOf pl b = [b]
    exact h.symm
  | some a =>
    have hak : a ∈ placedKeys pl := (hP.2 b a hv).1
    have hpos : posOf pl a < posOf pl b := (hP.2 b a hv).2
    have hcana := pathOf_eq pl hP a hak
    have hmono := get_path_mono pl (posOf pl a + 1) (some a) (pathOf pl a)
      hcana (posOf pl b) (by omega)
    have h2 : get_path pl (posOf pl b + 1) (some b)
        = some (pathOf pl a ++ [b]) := by
      simp only [get_path, hv, hmono]
    rw [h2] at hcan
    injection hcan with h
    show pathOf pl b = pathOf pl a ++ [b]
    exact h.symm

theorem elem_path_len (pl : List (Nat × Option Nat)) (hP : PlacedOK pl)
    (b : Nat) (hb : b ∈ placedKeys pl) (i : Nat) (z : Nat)
    (hi : (pathOf pl b).get? i = some z) :
    (pathOf pl z).length = i + 1 := by
  obtain ⟨hlast, hnd, helem, hpre, hlen⟩ := pathOf_facts pl hP b hb
  have hz : z ∈ pathOf pl b := List.get?_mem hi
  have hzk : z ∈ placedKeys pl := (helem z hz).1
  obtain ⟨hlastz, _, _, _, _⟩ := pathOf_facts pl hP z hzk
  obtain ⟨hposz, hgetz⟩ := getLast?_get? _ z hlastz
  have hgb : (pathOf pl b).get? ((pathOf pl z).length - 1) = some z := by
    rw [isPre_get? _ _ (hpre z hz) _ (by omega)]
    exact hgetz
  have := nodup_get?_inj (pathOf pl b) hnd _ _ z hgb hi
  omega

theorem elem_path_get (pl : List (Nat × Option Nat)) (hP : PlacedOK pl)
    (b : Nat) (hb : b ∈ placedKeys pl) (i : Nat) (z : Nat)
    (hi : (pathOf pl b).get? i = some z) (j : Nat) (hj : j ≤ i) :
    (pathOf pl z).get? j = (pathOf pl b).get? j := by
  obtain ⟨_, _, helem, hpre, _⟩ := pathOf_facts pl hP b hb
  have hz : z ∈ pathOf pl b := List.get?_mem hi
  have hlenz := elem_path_len pl hP b hb i z hi
  exact (isPre_get? _ _ (hpre z hz) j (by omega)).symm

end Turbo

namespace Turbo

theorem path_succ_parent (pl : List (Nat × Option Nat)) (hP : PlacedOK pl)
    (b : Nat) (hb : b ∈ placedKeys pl) (i : Nat) (z z' : Nat)
    (hi : (pathOf pl b).get? i = some z)
    (hi' : (pathOf pl b).get? (i + 1) = some z') :
    placeLookup pl z' = some (some z) := by
  obtain ⟨_, hnd, helem, hpre, _⟩ := pathOf_facts pl hP b hb
  have hz' : z' ∈ pathOf pl b := List.get?_mem hi'
  have hz'k : z' ∈ placedKeys pl := (helem z' hz').1
  obtain ⟨v, hv⟩ := placeLookup_some_of_mem pl z' hz'k
  have hpar := pathOf_parent pl hP z' hz'k v hv
  have hlen' : (pathOf pl z').length = i + 2 :=
    elem_path_len pl hP b hb (i + 1) z' hi'
  cases v with
  | none =>
    rw [hpar] at hlen'
    simp [pathTo] at hlen'
  | some a =>
    have hak : a ∈ placedKeys pl := (hP.2 z' a hv).1
    have hpa : pathTo pl (some a) = pathOf pl a := rfl
    rw [hpar, hpa, List.length_append] at hlen'
    simp only [List.length_singleton] at hlen'
    obtain ⟨hlasta, _, _, _, _⟩ := pathOf_facts pl hP a hak
    obtain ⟨hposa, hgeta⟩ := getLast?_get? _ a hlasta
    have h1 : (pathOf pl z').get? i = some a := by
      rw [hpar, hpa, List.get?_append (by omega)]
      rw [show (pathOf pl a).length - 1 = i from by omega] at hgeta
      exact hgeta
    have h2 : (pathOf pl z').get? i = some z := by
      rw [elem_path_get pl hP b hb (i + 1) z' hi' i (by omega)]
      exact hi
    rw [h1] at h2
    injection h2 with h2
    rw [hv, h2]

theorem path_head_root (pl : List (Nat × Option Nat)) (hP : PlacedOK pl)
    (b : Nat) (hb : b ∈ placedKeys pl) (z : Nat)
    (h0 : (pathOf pl b).get? 0 = some z) :
    placeLookup pl z = some none := by
  obtain ⟨_, _, helem, _, _⟩ := pathOf_facts pl hP b hb
  have hz : z ∈ pathOf pl b := List.get?_mem h0
  have hzk : z ∈ placedKeys pl := (helem z hz).1
  obtain ⟨v, hv⟩ := placeLookup_some_of_mem pl z hzk
  have hpar := pathOf_parent pl hP z hzk v hv
  have hlen : (pathOf pl z).length = 1 := elem_path_len pl hP b hb 0 z h0
  cases v with
  | none => exact hv
  | some a =>
    exfalso
    have hak : a ∈ placedKeys pl := (hP.2 z a hv).1
    have hpa : pathTo pl (some a) = pathOf pl a := rfl
    rw [hpar, hpa, List.length_append] at hlen
    obtain ⟨hlasta, _, _, _, _⟩ := pathOf_facts pl hP a hak
    obtain ⟨hposa, _⟩ := getLast?_get? _ a hlasta
    simp only [List.length_singleton] at hlen
    omega

theorem child_on_path_unique (pl : List (Nat × Option Nat)) (hP : PlacedOK pl)
    (b : Nat) (hb : b ∈ placedKeys pl) (p : Option Nat) (c c' : Nat)
    (hc : c ∈ pathOf pl b) (hc' : c' ∈ pathOf pl b)
    (hl : placeLookup pl c = some p) (hl' : placeLookup pl c' = some p) :
    c = c' := by
  obtain ⟨_, hnd, _, _, _⟩ := pathOf_facts pl hP b hb
  obtain ⟨i, hi⟩ := List.mem_iff_get?.mp hc
  obtain ⟨j, hj⟩ := List.mem_iff_get?.mp hc'
  cases p with
  | none =>
    have hzero : ∀ k w, (pathOf pl b).get? k = some w →
        placeLookup pl w = some none → k = 0 := by
      intro k w hk hw
      cases k with
      | zero => rfl
      | succ k' =>
        exfalso
        obtain ⟨hlt, _⟩ := List.get?_eq_some.mp hk
        have hlt' : k' < (pathOf pl b).length := by omega
        have hu : (pathOf pl b).get? k'
            = some ((pathOf pl b).get ⟨k', hlt'⟩) := List.get?_eq_get hlt'
        have hsp := path_succ_parent pl hP b hb k' _ w hu hk
        rw [hw] at hsp
        injection hsp with h1
        exact Option.noConfusion h1
    have hi0 := hzero i c hi hl
    have hj0 := hzero j c' hj hl'
    rw [hi0] at hi
    rw [hj0] at hj
    rw [hi] at hj
    injection hj with h
  | some x =>
    have key : ∀ k w, (pathOf pl b).get? k = some w →
        placeLookup pl w = some (some x) →
        ∃ k', k = k' + 1 ∧ (pathOf pl b).get? k' = some x := by
      intro k w hk hw
      cases k with
      | zero =>
        exfalso
        have hr := path_head_root pl hP b hb w hk
        rw [hw] at hr
        injection hr with h1
        exact Option.noConfusion h1
      | succ k' =>
        obtain ⟨hlt, _⟩ := List.get?_eq_some.mp hk
        have hlt' : k' < (pathOf pl b).length := by omega
        have hu : (pathOf pl b).get? k'
            = some ((pathOf pl b).get ⟨k', hlt'⟩) := List.get?_eq_get hlt'
        have hsp := path_succ_parent pl hP b hb k' _ w hu hk
        rw [hw] at hsp
        injection hsp with h1
        injection h1 with h1
        refine ⟨k', rfl, ?_⟩
        rw [hu]
        exact congrArg some h1.symm
    obtain ⟨i', hieq, hix⟩ := key i c hi hl
    obtain ⟨j', hjeq, hjx⟩ := key j c' hj hl'
    have hij' : i' = j' := nodup_get?_inj _ hnd i' j' x hix hjx
    have hij : i = j := by omega
    rw [hij] at hi
    rw [hi] at hj
    injection hj with h

theorem desc_has_child (pl : List (Nat × Option Nat)) (hP : PlacedOK pl)
    (b : Nat) (hb : b ∈ placedKeys pl) (c : Nat)
    (hc : c ∈ pathOf pl b) (hne : c ≠ b) :
    ∃ d, placeLookup pl d = some (some c) := by
  obtain ⟨hlast, hnd, _, _, _⟩ := pathOf_facts pl hP b hb
  obtain ⟨i, hi⟩ := List.mem_iff_get?.mp hc
  obtain ⟨hposb, hgetb⟩ := getLast?_get? _ b hlast
  obtain ⟨hlt, _⟩ := List.get?_eq_some.mp hi
  have hine : i ≠ (pathOf pl b).length - 1 := by
    intro h
    rw [h] at hi
    rw [hgetb] at hi
    injection hi with h1
    exact hne h1.symm
  have hlt1 : i + 1 < (pathOf pl b).length := by omega
  have hd : (pathOf pl b).get? (i + 1)
      = some ((pathOf pl b).get ⟨i + 1, hlt1⟩) := List.get?_eq_get hlt1
  exact ⟨_, path_succ_parent pl hP b hb i c _ hi hd⟩

theorem direct_desc (pl : List (Nat × Option Nat)) (hP : PlacedOK pl)
    (b : Nat) (hb : b ∈ placedKeys pl) (p : Option Nat)
    (hv : placeLookup pl b = some p) :
    DescM pl p b := by
  cases p with
  | none => trivial
  | some x =>
    have hxk : x ∈ placedKeys pl := (hP.2 b x hv).1
    have hxpos : posOf pl x < posOf pl b := (hP.2 b x hv).2
    have hpar := pathOf_parent pl hP b hb (some x) hv
    refine ⟨?_, ?_⟩
    · rw [hpar]
      exact List.mem_append_left _ (pathOf_self_mem pl hP x hxk)
    · intro h
      subst h
      omega

theorem desc_trans (pl : List (Nat × Option Nat)) (hP : PlacedOK pl)
    (b : Nat) (hb : b ∈ placedKeys pl) (c : Nat) (hck : c ∈ placedKeys pl)
    (p : Option Nat) (hcp : placeLookup pl c = some p)
    (hd : DescM pl (some c) b) :
    DescM pl p b := by
  obtain ⟨hcb, hcne⟩ := hd
  cases p with
  | none => trivial
  | some x =>
    obtain ⟨_, _, helem, hpre, _⟩ := pathOf_facts pl hP b hb
    have hxk : x ∈ placedKeys pl := (hP.2 c x hcp).1
    have hxpos : posOf pl x < posOf pl c := (hP.2 c x hcp).2
    have hparc := pathOf_parent pl hP c hck (some x) hcp
    have hxinc : x ∈ pathOf pl c := by
      rw [hparc]
      exact List.mem_append_left _ (pathOf_self_mem pl hP x hxk)
    obtain ⟨t, ht⟩ := hpre c hcb
    have hxinb : x ∈ pathOf pl b := by
      rw [← ht]
      exact List.mem_append_left _ hxinc
    refine ⟨hxinb, ?_⟩
    intro h
    have hcpos : posOf pl c ≤ posOf pl b := (helem c hcb).2
    subst h
    omega

theorem desc_step (pl : List (Nat × Option Nat)) (hP : PlacedOK pl)
    (b : Nat) (hb : b ∈ placedKeys pl) (p : Option Nat)
    (hd : DescM pl p b) (v : Option Nat)
    (hv : placeLookup pl b = some v) (hne : v ≠ p) :
    ∃ c, placeLookup pl c = some p ∧ c ∈ pathOf pl b ∧ c ≠ b := by
  cases p with
  | none =>
    cases hpath : pathOf pl b with
    | nil =>
      exfalso
      have hself := pathOf_self_mem pl hP b hb
      rw [hpath] at hself
      simp at hself
    | cons c rest =>
      have h0 : (pathOf pl b).get? 0 = some c := by rw [hpath]; rfl
      have hr := path_head_root pl hP b hb c h0
      refine ⟨c, hr, List.mem_cons_self c rest, ?_⟩
      intro h
      rw [h] at hr
      rw [hv] at hr
      injection hr with h1
      exact hne h1
  | some x =>
    obtain ⟨hxb, hxne⟩ := hd
    obtain ⟨_, hnd, _, _, _⟩ := pathOf_facts pl hP b hb
    obtain ⟨ix, hix⟩ := List.mem_iff_get?.mp hxb
    obtain ⟨hlast, _, _, _, _⟩ := pathOf_facts pl hP b hb
    obtain ⟨hposb, hgetb⟩ := getLast?_get? _ b hlast
    obtain ⟨hlt, _⟩ := List.get?_eq_some.mp hix
    have hine : ix ≠ (pathOf pl b).length - 1 := by
      intro h
      rw [h] at hix
      rw [hgetb] at hix
      injection hix with h1
      exact hxne h1.symm
    have hlt1 : ix + 1 < (pathOf pl b).length := by omega
    have hc : (pathOf pl b).get? (ix + 1)
        = some ((pathOf pl b).get ⟨ix + 1, hlt1⟩) := List.get?_eq_get hlt1
    have hsp := path_succ_parent pl hP b hb ix x _ hix hc
    refine ⟨_, hsp, List.get?_mem hc, ?_⟩
    intro h
    rw [h] at hsp
    rw [hv] at hsp
    injection hsp with h1
    exact hne h1

end Turbo

namespace Turbo

theorem count_eq_ite_mem (l : List Nat) (a : Nat) (hle : l.count a ≤ 1) :
    l.count a = if a ∈ l then 1 else 0 := by
  by_cases hm : a ∈ l
  · rw [if_pos hm]
    have hpos : 0 < l.count a := List.count_pos_iff_mem.mpr hm
    omega
  · rw [if_neg hm]
    exact List.count_eq_zero_of_not_mem hm

theorem sum_map_add {A : Type} (l : List A) (f g : A → Nat) :
    (l.map (fun a => f a + g a)).sum = (l.map f).sum + (l.map g).sum := by
  induction l with
  | nil => rfl
  | cons a t ih => simp only [List.map_cons, List.sum_cons, ih]; omega

theorem sum_map_ite_eq_count (l : List Nat) (b : Nat) :
    (l.map (fun c => if c = b then 1 else 0)).sum = l.count b := by
  induction l with
  | nil => rfl
  | cons a t ih =>
    rw [List.map_cons, List.sum_cons, ih, count_cons_ite]
    omega

theorem sum_map_ite_zero {A : Type} (P : A → Prop) [DecidablePred P]
    (l : List A) (h : ∀ a ∈ l, ¬ P a) :
    (l.map (fun a => if P a then 1 else 0)).sum = 0 := by
  induction l with
  | nil => rfl
  | cons a t ih =>
    rw [List.map_cons, List.sum_cons, if_neg (h a (List.mem_cons_self a t)),
      ih (fun x hx => h x (List.mem_cons_of_mem a hx))]

theorem sum_map_ite_single {A : Type} [DecidableEq A] (P : A → Prop) [DecidablePred P] :
    ∀ (l : List A), l.Nodup → ∀ c₀, c₀ ∈ l → P c₀ → (∀ a ∈ l, P a → a = c₀) →
      (l.map (fun a => if P a then 1 else 0)).sum = 1 := by
  intro l
  induction l with
  | nil => intro _ c₀ hc; simp at hc
  | cons a t ih =>
    intro hnd c₀ hc hP huniq
    obtain ⟨hnota, hndt⟩ := List.nodup_cons.mp hnd
    rw [List.map_cons, List.sum_cons]
    rcases List.mem_cons.mp hc with h | h
    · subst h
      rw [if_pos hP]
      rw [sum_map_ite_zero P t ?hz]
      case hz =>
        intro x hx hPx
        have : x = c₀ := huniq x (List.mem_cons_of_mem _ hx) hPx
        subst this
        exact hnota hx
    · have hac : ¬ P a := by
        intro hPa
        have : a = c₀ := huniq a (List.mem_cons_self a t) hPa
        subst this
        exact hnota h
      rw [if_neg hac, ih hndt c₀ h hP (fun x hx hPx => huniq x (List.mem_cons_of_mem a hx) hPx)]

theorem count_filter_split (l : List Nat) (q : Nat → Bool) (b : Nat) :
    l.count b = (l.filter q).count b + (l.filter (fun c => ! q c)).count b := by
  induction l with
  | nil => rfl
  | cons a t ih =>
    rw [count_cons_ite]
    by_cases hq : q a = true
    · rw [List.filter_cons_of_pos hq,
        List.filter_cons_of_neg (by simp [hq]), count_cons_ite]
      omega
    · rw [List.filter_cons_of_neg hq,
        List.filter_cons_of_pos (by simp [Bool.not_eq_true] at hq; simp [hq]),
        count_cons_ite]
      omega

theorem optList_ex (f : Nat → Option GroupTree) :
    ∀ (l : List Nat), (∀ a ∈ l, ∃ t, f a = some t) →
      ∃ ts, optList f l = some ts := by
  intro l
  induction l with
  | nil => exact fun _ => ⟨[], rfl⟩
  | cons a t ih =>
    intro h
    obtain ⟨tr, htr⟩ := h a (List.mem_cons_self a t)
    obtain ⟨ts, hts⟩ := ih (fun x hx => h x (List.mem_cons_of_mem a hx))
    exact ⟨tr :: ts, by simp only [optList, htr, hts]⟩

theorem optList_count (f : Nat → Option GroupTree) (g : Nat → Nat) (b : Nat) :
    ∀ (l : List Nat) (ts : List GroupTree), optList f l = some ts →
      (∀ a ∈ l, ∀ t, f a = some t → (flattenTree t).count b = g a) →
      (flattenTrees ts).count b = (l.map g).sum := by
  intro l
  induction l with
  | nil =>
    intro ts h _
    injection h with h
    rw [← h]
    rfl
  | cons a l ih =>
    intro ts h hc
    cases hfa : f a with
    | none => rw [optList, hfa] at h; simp at h
    | some tr =>
      cases hrest : optList f l with
      | none => rw [optList, hfa, hrest] at h; simp at h
      | some bs =>
        rw [optList, hfa, hrest] at h
        injection h with h
        rw [← h]
        show (flattenTree tr ++ flattenTrees bs).count b = _
        rw [List.count_append, hc a (List.mem_cons_self a l) tr hfa,
          ih bs hrest (fun x hx => hc x (List.mem_cons_of_mem a hx)),
          List.map_cons, List.sum_cons]

theorem group_isSome_of_entry (pl : List (Nat × Option Nat)) (d : Nat)
    (p' : Option Nat) (h : (d, p') ∈ pl) :
    (groupLookup (childrenMap pl) p').isSome = true := by
  have hmem : d ∈ groupListD (childrenMap pl) p' := (mem_group_iff pl p' d).mpr h
  simp only [groupListD] at hmem
  cases hg : groupLookup (childrenMap pl) p' with
  | none => rw [hg] at hmem; simp at hmem
  | some l => rfl

theorem group_nodup (pl : List (Nat × Option Nat))
    (hnd : (placedKeys pl).Nodup) (p : Option Nat) :
    (groupListD (childrenMap pl) p).Nodup := by
  rw [List.nodup_iff_count_le_one]
  intro c
  rw [childrenMap_count]
  calc pl.count (c, p) ≤ (placedKeys pl).count c := count_entry_le_keys pl c p
    _ ≤ 1 := List.nodup_iff_count_le_one.mp hnd c

theorem toList_count (p : Option Nat) (b : Nat) :
    p.toList.count b = if p = some b then 1 else 0 := by
  cases p with
  | none => simp
  | some x =>
    show List.count b [x] = _
    rw [count_cons_ite]
    by_cases h : x = b
    · simp [h]
    · simp [h, fun hh : some x = some b => h (Option.some.inj hh)]

theorem pathTo_length_le (pl : List (Nat × Option Nat)) (hP : PlacedOK pl)
    (p : Option Nat) (hp : p = none ∨ ∃ x, p = some x ∧ x ∈ placedKeys pl) :
    (pathTo pl p).length ≤ pl.length := by
  rcases hp with rfl | ⟨x, rfl, hx⟩
  · simp [pathTo]
  · obtain ⟨_, _, _, _, hlen⟩ := pathOf_facts pl hP x hx
    have hpos := posOf_lt_length pl x hx
    show (pathOf pl x).length ≤ pl.length
    omega

end Turbo

namespace Turbo

theorem sum_map_eq_zero {A : Type} (l : List A) (g : A → Nat)
    (h : ∀ a ∈ l, g a = 0) : (l.map g).sum = 0 := by
  induction l with
  | nil => rfl
  | cons a t ih =>
    rw [List.map_cons, List.sum_cons, h a (List.mem_cons_self a t),
      ih (fun x hx => h x (List.mem_cons_of_mem a hx))]

theorem sum_map_eq_single {A : Type} [DecidableEq A] :
    ∀ (l : List A), l.Nodup → ∀ (g : A → Nat) (c₀ : A), c₀ ∈ l →
      (∀ a ∈ l, a ≠ c₀ → g a = 0) → (l.map g).sum = g c₀ := by
  intro l
  induction l with
  | nil => intro _ g c₀ hc; simp at hc
  | cons a t ih =>
    intro hnd g c₀ hc hz
    obtain ⟨hnota, hndt⟩ := List.nodup_cons.mp hnd
    rw [List.map_cons, List.sum_cons]
    rcases List.mem_cons.mp hc with h | h
    · subst h
      rw [sum_map_eq_zero t g ?hzz]
      case hzz =>
        intro x hx
        refine hz x (List.mem_cons_of_mem c₀ hx) ?_
        intro hxa
        subst hxa
        exact hnota hx
      omega
    · rw [hz a (List.mem_cons_self a t) (fun haeq => hnota (haeq ▸ h)),
        ih hndt g c₀ h (fun x hx hxne => hz x (List.mem_cons_of_mem a hx) hxne)]
      omega

theorem into_group_count (pl : List (Nat × Option Nat)) (hP : PlacedOK pl) :
    ∀ fuel p, (p = none ∨ ∃ x, p = some x ∧ x ∈ placedKeys pl) →
      (groupLookup (childrenMap pl) p).isSome = true →
      pl.length + 1 ≤ fuel + (pathTo pl p).length →
      ∃ t, into_group (childrenMap pl) fuel p = some t ∧
        ∀ b, (flattenTree t).count b
          = (if p = some b then 1 else 0)
            + (if b ∈ placedKeys pl ∧ DescM pl p b then 1 else 0) := by
  intro fuel
  induction fuel with
  | zero =>
    intro p hp _ hfuel
    exfalso
    have := pathTo_length_le pl hP p hp
    omega
  | succ fuel ih =>
    intro p hp hsome hfuel
    obtain ⟨inner, hinner⟩ : ∃ inner, groupLookup (childrenMap pl) p = some inner := by
      cases h : groupLookup (childrenMap pl) p with
      | none => rw [h] at hsome; simp at hsome
      | some l => exact ⟨l, rfl⟩
    have hinnerD : groupListD (childrenMap pl) p = inner := by
      simp only [groupListD, hinner, Option.getD_some]
    have hmem_inner : ∀ c, c ∈ inner ↔ (c, p) ∈ pl := by
      intro c
      rw [← hinnerD]
      exact mem_group_iff pl p c
    have hnd_inner : inner.Nodup := hinnerD ▸ group_nodup pl hP.1 p
    have hfacts : ∀ c ∈ inner, c ∈ placedKeys pl ∧ placeLookup pl c = some p := by
      intro c hc
      have hcp : (c, p) ∈ pl := (hmem_inner c).mp hc
      have hck : c ∈ placedKeys pl := List.mem_map_of_mem (fun e => e.1) hcp
      exact ⟨hck, entry_placeLookup pl hP.1 c p hcp⟩
    have hrec : ∀ c ∈ inner.filter
        (fun c => (groupLookup (childrenMap pl) (some c)).isSome),
        ∃ t, into_group (childrenMap pl) fuel (some c) = some t ∧
          ∀ b, (flattenTree t).count b
            = (if some c = some b then 1 else 0)
              + (if b ∈ placedKeys pl ∧ DescM pl (some c) b then 1 else 0) := by
      intro c hc
      obtain ⟨hcin, hcS⟩ := List.mem_filter.mp hc
      obtain ⟨hck, hlookc⟩ := hfacts c hcin
      have hpathc : pathOf pl c = pathTo pl p ++ [c] :=
        pathOf_parent pl hP c hck p hlookc
      refine ih (some c) (Or.inr ⟨c, rfl, hck⟩) hcS ?_
      show pl.length + 1 ≤ fuel + (pathOf pl c).length
      rw [hpathc, List.length_append]
      simp only [List.length_singleton]
      omega
    obtain ⟨subs, hsubs⟩ := optList_ex
      (fun c => into_group (childrenMap pl) fuel (some c))
      (inner.filter (fun c => (groupLookup (childrenMap pl) (some c)).isSome))
      (fun c hc => (hrec c hc).imp (fun t ht => ht.1))
    refine ⟨GroupTree.mk p subs (inner.filter
      (fun c => ! (groupLookup (childrenMap pl) (some c)).isSome)), ?_, ?_⟩
    · simp only [into_group, hinner, hsubs]
    · intro b
      have hcnt := optList_count
        (fun c => into_group (childrenMap pl) fuel (some c))
        (fun c => (if c = b then 1 else 0)
          + (if b ∈ placedKeys pl ∧ DescM pl (some c) b then 1 else 0)) b
        (inner.filter (fun c => (groupLookup (childrenMap pl) (some c)).isSome))
        subs hsubs ?hg
      case hg =>
        intro a ha t ht
        obtain ⟨t', ht', hcnt'⟩ := hrec a ha
        have ht2 : into_group (childrenMap pl) fuel (some a) = some t := ht
        rw [ht2] at ht'
        injection ht' with ht'
        rw [ht']
        have hc' := hcnt' b
        simp only [Option.some.injEq] at hc'
        exact hc'
      simp only [flattenTree]
      rw [List.count_append, List.count_append, toList_count, hcnt]
      have hnd_innerS : (inner.filter
          (fun c => (groupLookup (childrenMap pl) (some c)).isSome)).Nodup :=
        hnd_inner.filter _
      have hnd_leaves : (inner.filter
          (fun c => ! (groupLookup (childrenMap pl) (some c)).isSome)).Nodup :=
        hnd_inner.filter _
      by_cases hbk : b ∈ placedKeys pl
      · obtain ⟨v, hv⟩ := placeLookup_some_of_mem pl b hbk
        by_cases hvp : v = p
        · subst hvp
          have hmemb : (b, v) ∈ pl := placeLookup_mem_entry pl b v hv
          have hdesc : DescM pl v b := direct_desc pl hP b hbk v hv
          have hbin : b ∈ inner := (hmem_inner b).mpr hmemb
          have hcond1 : b ∈ placedKeys pl ∧ DescM pl v b := ⟨hbk, hdesc⟩
          rw [if_pos hcond1]
          have hothers : ∀ a ∈ inner.filter
              (fun c => (groupLookup (childrenMap pl) (some c)).isSome),
              a ≠ b → ((if a = b then 1 else 0)
                + (if b ∈ placedKeys pl ∧ DescM pl (some a) b then 1 else 0)) = 0 := by
            intro a ha hane
            obtain ⟨hain, _⟩ := List.mem_filter.mp ha
            obtain ⟨hak, halook⟩ := hfacts a hain
            rw [if_neg hane, if_neg ?hnd2]
            case hnd2 =>
              rintro ⟨_, hapath, -⟩
              exact hane (child_on_path_unique pl hP b hbk v a b hapath
                (pathOf_self_mem pl hP b hbk) halook hv)
          by_cases hbS : (groupLookup (childrenMap pl) (some b)).isSome = true
          · have hbinS : b ∈ inner.filter
                (fun c => (groupLookup (childrenMap pl) (some c)).isSome) :=
              List.mem_filter.mpr ⟨hbin, hbS⟩
            have hnotleaf : b ∉ inner.filter
                (fun c => ! (groupLookup (childrenMap pl) (some c)).isSome) := by
              intro h
              obtain ⟨_, hb2⟩ := List.mem_filter.mp h
              rw [hbS] at hb2
              exact Bool.noConfusion hb2
            rw [List.count_eq_zero_of_not_mem hnotleaf]
            rw [sum_map_eq_single _ hnd_innerS _ b hbinS hothers]
            have hnd3 : ¬ (b ∈ placedKeys pl ∧ DescM pl (some b) b) := by
              rintro ⟨-, -, hne⟩
              exact hne rfl
            rw [if_neg hnd3, if_pos rfl]
          · have hbleaf : b ∈ inner.filter
                (fun c => ! (groupLookup (childrenMap pl) (some c)).isSome) :=
              List.mem_filter.mpr ⟨hbin, by
                cases h : (groupLookup (childrenMap pl) (some b)).isSome with
                | false => rfl
                | true => exact absurd h hbS⟩
            have hleafcount : (inner.filter
                (fun c => ! (groupLookup (childrenMap pl) (some c)).isSome)).count b
                = 1 := by
              rw [count_eq_ite_mem _ _ (List.nodup_iff_count_le_one.mp hnd_leaves b),
                if_pos hbleaf]
            rw [hleafcount]
            rw [sum_map_eq_zero _ _ ?hzz]
            case hzz =>
              intro a ha
              refine hothers a ha ?_
              intro hab
              obtain ⟨_, haS⟩ := List.mem_filter.mp ha
              exact hbS (hab ▸ haS)
        · have hbp_not : (b, p) ∉ pl := by
            intro h
            have := entry_placeLookup pl hP.1 b p h
            rw [hv] at this
            injection this with this
            exact hvp this
          have hbnotin : b ∉ inner := fun h => hbp_not ((hmem_inner b).mp h)
          have hnotleaf : b ∉ inner.filter
              (fun c => ! (groupLookup (childrenMap pl) (some c)).isSome) := by
            intro h
            exact hbnotin (List.mem_filter.mp h).1
          rw [List.count_eq_zero_of_not_mem hnotleaf]
          by_cases hdesc : DescM pl p b
          · have hcond2 : b ∈ placedKeys pl ∧ DescM pl p b := ⟨hbk, hdesc⟩
            rw [if_pos hcond2]
            obtain ⟨c, hclook, hcpath, hcne⟩ :=
              desc_step pl hP b hbk p hdesc v hv hvp
            have hcp : (c, p) ∈ pl := placeLookup_mem_entry pl c p hclook
            have hcin : c ∈ inner := (hmem_inner c).mpr hcp
            obtain ⟨d, hd⟩ := desc_has_child pl hP b hbk c hcpath hcne
            have hdS : (groupLookup (childrenMap pl) (some c)).isSome = true :=
              group_isSome_of_entry pl d (some c) (placeLookup_mem_entry pl d (some c) hd)
            have hcinS : c ∈ inner.filter
                (fun x => (groupLookup (childrenMap pl) (some x)).isSome) :=
              List.mem_filter.mpr ⟨hcin, hdS⟩
            rw [sum_map_eq_single _ hnd_innerS _ c hcinS ?hothers]
            case hothers =>
              intro a ha hane
              obtain ⟨hain, _⟩ := List.mem_filter.mp ha
              obtain ⟨hak, halook⟩ := hfacts a hain
              rw [if_neg ?hne1, if_neg ?hne2]
              case hne1 =>
                intro hab
                exact hbnotin (hab ▸ hain)
              case hne2 =>
                rintro ⟨_, hapath, -⟩
                exact hane (child_on_path_unique pl hP b hbk p a c hapath
                  hcpath halook hclook)
            have hcond3 : b ∈ placedKeys pl ∧ DescM pl (some c) b := ⟨hbk, hcpath, hcne⟩
            rw [if_neg hcne, if_pos hcond3]
          · rw [if_neg (show ¬ (b ∈ placedKeys pl ∧ DescM pl p b) from
              fun h => hdesc h.2)]
            rw [sum_map_eq_zero _ _ ?hzz2]
            case hzz2 =>
              intro a ha
              obtain ⟨hain, _⟩ := List.mem_filter.mp ha
              obtain ⟨hak, halook⟩ := hfacts a hain
              rw [if_neg ?hne3, if_neg ?hne4]
              case hne3 =>
                intro hab
                exact hbnotin (hab ▸ hain)
              case hne4 =>
                rintro ⟨_, hda⟩
                exact hdesc (desc_trans pl hP b hbk a hak p halook hda)
      · have hnotleaf : b ∉ inner.filter
            (fun c => ! (groupLookup (childrenMap pl) (some c)).isSome) := by
          intro h
          have hbin := (List.mem_filter.mp h).1
          exact hbk (hfacts b hbin).1
        rw [List.count_eq_zero_of_not_mem hnotleaf]
        rw [if_neg (show ¬ (b ∈ placedKeys pl ∧ DescM pl p b) from fun h => hbk h.1)]
        rw [sum_map_eq_zero _ _ ?hzz3]
        case hzz3 =>
          intro a ha
          obtain ⟨hain, _⟩ := List.mem_filter.mp ha
          rw [if_neg ?hne5, if_neg (show ¬ (b ∈ placedKeys pl ∧ DescM pl (some a) b)
            from fun h => hbk h.1)]
          case hne5 =>
            intro hab
            exact hbk (hab ▸ (hfacts a hain).1)

end Turbo

namespace Turbo

/-- C9: amended claim. On well-formed stats (duplicate-free bucket keys,
every `Child` target present) whose `Child` reference graph is acyclic
(witnessed by a rank function) and nonempty, `treeify` succeeds, every
bucket of the stats table appears exactly once in the resulting
`GroupTree`, and every re-placement performed by the loop chooses the
deepest node shared by the proposed and the current placement path — the
root when they share none — as the claim states. The claim's
failure-free reading does not extend to cyclic stats: there the root set
is empty and the source panics on the `children[&None]` lookup, which the
separate counterexample records. -/
theorem C9_treeify_amended (stats : StatsTable)
    (HK : (statsKeys stats).Nodup)
    (HC : ∀ e ∈ stats, ∀ c ∈ e.2, c ∈ statsKeys stats)
    (HA : ∃ rank : Nat → Nat, ∀ e ∈ stats, ∀ c ∈ e.2, rank e.1 < rank c)
    (HN : stats ≠ []) :
    (∃ t, treeify stats = some t ∧
      ∀ b, (flattenTree t).count b = if b ∈ statsKeys stats then 1 else 0) ∧
    (∃ evs, treeifyEvents stats = some evs ∧
      ∀ ev ∈ evs, EventSpec ev.path1 ev.path2 ev.chosen) := by
  have hinit := initial_inv stats
  have hmeas : (⟨[], (statsRoots stats).map (fun r => (r, none)), []⟩
      : TreeifyState).queue.length + budget stats [] < bfsFuel stats := by
    show ((statsRoots stats).map (fun r => (r, (none : Option Nat)))).length
      + budget stats [] < bfsFuel stats
    rw [List.length_map, budget_nil_placement]
    have hroots := statsRoots_length_le stats
    simp only [bfsFuel]
    omega
  obtain ⟨s', hloop, hq, hinv', hmono⟩ :=
    treeifyLoop_ok stats HK HC (bfsFuel stats) _ hinit hmeas
  obtain ⟨hP, hkeys, hQ, hCov, hEv⟩ := hinv'
  have hall : ∀ b ∈ statsKeys stats, b ∈ placedKeys s'.placement := by
    refine all_placed stats HA s'.placement ?_ ?_
    · intro r hr
      rcases hCov.1 r hr with h | h
      · exact h
      · rw [hq] at h
        simp at h
    · intro e he hplaced c hc
      rcases hCov.2 e he hplaced c hc with h | h
      · exact h
      · rw [hq] at h
        simp at h
  have hkeys_iff : ∀ b, b ∈ placedKeys s'.placement ↔ b ∈ statsKeys stats :=
    fun b => ⟨fun h => hkeys b h, fun h => hall b h⟩
  obtain ⟨e0, he0⟩ : ∃ e0, e0 ∈ stats := by
    cases h : stats with
    | nil => exact absurd h HN
    | cons a t => exact ⟨a, h ▸ List.mem_cons_self a t⟩
  have he0k : e0.1 ∈ statsKeys stats := List.mem_map_of_mem _ he0
  have he0p : e0.1 ∈ placedKeys s'.placement := hall e0.1 he0k
  obtain ⟨x, hx, hxnone⟩ := exists_root_entry s'.placement hP e0.1 he0p
  have hxe : (x, (none : Option Nat)) ∈ s'.placement :=
    placeLookup_mem_entry s'.placement x none hxnone
  have hsome : (groupLookup (childrenMap s'.placement) none).isSome = true :=
    group_isSome_of_entry s'.placement x none hxe
  obtain ⟨t, htg, hcount⟩ := into_group_count s'.placement hP
    (s'.placement.length + 1) none (Or.inl rfl) hsome
    (by show s'.placement.length + 1
          ≤ s'.placement.length + 1 + ([] : List Nat).length
        simp)
  constructor
  · refine ⟨t, ?_, ?_⟩
    · unfold treeify
      rw [hloop]
      exact htg
    · intro b
      rw [hcount b]
      by_cases hb : b ∈ statsKeys stats
      · have hcond : b ∈ placedKeys s'.placement ∧ DescM s'.placement none b :=
          ⟨(hkeys_iff b).mpr hb, trivial⟩
        rw [if_pos hb, if_pos hcond,
          if_neg (fun h : (none : Option Nat) = some b => Option.noConfusion h)]
      · have hcond : ¬ (b ∈ placedKeys s'.placement ∧ DescM s'.placement none b) :=
          fun h => hb ((hkeys_iff b).mp h.1)
        rw [if_neg hb, if_neg hcond,
          if_neg (fun h : (none : Option Nat) = some b => Option.noConfusion h)]
  · refine ⟨s'.events, ?_, hEv⟩
    unfold treeifyEvents
    rw [hloop]
    rfl

/-- Witness: on the concrete stats table with bucket 0 referencing buckets
1 and 2, the hypotheses hold by evaluation and the amended theorem applies. -/
theorem C9_treeify_amended_witness :
    ((statsKeys [(0, [1, 2]), (1, []), (2, [])]).Nodup) ∧
    (∀ e ∈ ([(0, [1, 2]), (1, []), (2, [])] : StatsTable), ∀ c ∈ e.2,
      c ∈ statsKeys [(0, [1, 2]), (1, []), (2, [])]) ∧
    ((∃ t, treeify [(0, [1, 2]), (1, []), (2, [])] = some t ∧
      ∀ b, (flattenTree t).count b
        = if b ∈ statsKeys [(0, [1, 2]), (1, []), (2, [])] then 1 else 0) ∧
    (∃ evs, treeifyEvents [(0, [1, 2]), (1, []), (2, [])] = some evs ∧
      ∀ ev ∈ evs, EventSpec ev.path1 ev.path2 ev.chosen)) :=
  ⟨by decide, by decide,
    C9_treeify_amended [(0, [1, 2]), (1, []), (2, [])] (by decide) (by decide)
      ⟨fun n => n, by decide⟩ (by decide)⟩

end Turbo
